import Mathlib

/-!
# fasthttp `http_my.go`: bounded chunked-body decoding and bounded form re-serialisation

A shallow embedding of `src/http_my.go`.

* Byte slices are lists of naturals; Go `int` values that can be negative (`maxBodySize`,
  `limitSize`, `limitFormSize`, the limit of `myLimitReader`) are `Int`; sizes and cursors that
  only ever hold non-negative values (`rs`, `chunkSize`, `rd`, `wt`, lengths) are `Nat`.
* A `Reader` is a byte stream together with a schedule that says how many bytes each `Read`
  call may deliver at most, so that every way of splitting the stream across reads is covered.
* Loops are written with a fuel argument; a result `none` means that the fuel ran out.  The
  theorems below establish `some _` results, so the fuel handed out by the entry points is enough.
-/

namespace Fasthttp

/-- A byte of a Go `[]byte`, kept as a natural number. -/
abbrev Byte := Nat

/-- The cause carried by an `ErrBrokenChunk` value. -/
inductive Cause where
  /-- The chunk-size line is not `<hex-size>[;ext]\r\n`. -/
  | badSizeLine
  /-- `cannot find crlf at the end of chunk`. -/
  | noCrlfAtEnd
  deriving DecidableEq, Repr

/-- The error values that the modelled functions return. -/
inductive Error where
  /-- `io.EOF`. -/
  | EOF
  /-- `io.ErrUnexpectedEOF`. -/
  | ErrUnexpectedEOF
  /-- `ErrBodyTooLarge`. -/
  | ErrBodyTooLarge
  /-- `ErrBrokenChunk{error: ...}`. -/
  | ErrBrokenChunk (cause : Cause)
  /-- `fmt.Errorf("bufio.Read() returned (%d, nil)", nn)`. -/
  | readReturnedNil (nn : Nat)
  /-- Any other failure reported by an underlying stream or file. -/
  | transport (code : Nat)
  /-- `errors.New("form boundary cannot be empty")`. -/
  | emptyBoundary
  /-- `cannot use form boundary %q: %w`. -/
  | cannotUseBoundary
  /-- `cannot open form file %q (%q): %w`. -/
  | cannotOpenFile (cause : Error)
  /-- `error when copying form file %q (%q): %w`. -/
  | copyFile (cause : Error)
  /-- `cannot close form file %q (%q): %w`. -/
  | cannotCloseFile (cause : Error)
  deriving DecidableEq, Repr

/-- The two bytes `"\r\n"` (`strCRLF`). -/
def strCRLF : List Byte := [13, 10]

/-- The length of `strCRLF` (`strCRLFLen`). -/
def strCRLFLen : Nat := strCRLF.length

/-! ## Byte sources -/

/-- A byte source (`*bufio.Reader`, or the `io.Reader` of an opened file): the bytes still to be
delivered, a schedule bounding successive reads (an entry `s` lets the next `Read` deliver at
most `s + 1` bytes; once the schedule is used up a `Read` delivers all that was asked for), and
the error reported once the bytes are used up (`io.EOF` for a stream that has ended). -/
structure Reader where
  data : List Byte
  sched : List Nat
  fin : Error
  deriving DecidableEq, Repr

/-- The number of bytes a `Read` into a buffer of length `k` delivers. -/
def Reader.quota (r : Reader) (k : Nat) : Nat :=
  match r.sched with
  | [] => k
  | s :: _ => min k (s + 1)

/-- `Read(p)` with `len(p) = k`: the bytes placed at the start of `p`, the error and the source
afterwards.  An empty `p` yields `(0, nil)`; a source without bytes yields `(0, fin)`; otherwise
at least one byte is delivered. -/
def Reader.Read (r : Reader) (k : Nat) : List Byte × Option Error × Reader :=
  if k = 0 then ([], none, r)
  else
    match r.data with
    | [] => ([], some r.fin, r)
    | _ :: _ =>
      (r.data.take (r.quota k), none,
        { r with data := r.data.drop (r.quota k), sched := r.sched.tail })

/-! ## Chunk-size lines -/

/-- The value of a hexadecimal digit, `16` for any other byte (`hex2intTable`). -/
def hex2int (c : Byte) : Nat :=
  if 48 ≤ c ∧ c ≤ 57 then c - 48
  else if 97 ≤ c ∧ c ≤ 102 then c - 87
  else if 65 ≤ c ∧ c ≤ 70 then c - 55
  else 16

/-- Reads the leading hexadecimal digits, most significant first, into the accumulator. -/
def readHexDigits : Nat → List Byte → Nat × List Byte
  | n, [] => (n, [])
  | n, c :: cs => if hex2int c < 16 then readHexDigits (n * 16 + hex2int c) cs else (n, c :: cs)

/-- Skips a chunk extension up to the carriage return that ends it; a line feed inside the
extension, or the end of the bytes, is a failure. -/
def skipExt : List Byte → Bool × List Byte
  | [] => (false, [])
  | c :: cs => if c = 13 then (true, c :: cs) else if c = 10 then (false, c :: cs) else skipExt cs

/-- Reads the `\r\n` that ends a chunk-size line. -/
def readCrLf : List Byte → Bool × List Byte
  | 13 :: 10 :: rest => (true, rest)
  | rest => (false, rest)

/-- Modelled from the spec: `parseChunkSize` is not among the sources.  It parses one
`<hex-size>[;ext]\r\n` line: at least one hexadecimal digit, an optional extension that starts
with `;`, then `\r\n`.  It returns the declared size (`0` for the terminal chunk) and leaves the
cursor after the line; every malformed line fails with a broken-chunk error. -/
def parseChunkSize (r : Reader) : Except Error Nat × Reader :=
  match r.data with
  | [] => (.error (.ErrBrokenChunk .badSizeLine), r)
  | c :: cs =>
    if hex2int c < 16 then
      let (n, rest) := readHexDigits 0 (c :: cs)
      let (okExt, rest1) :=
        match rest with
        | 59 :: ext => skipExt ext
        | _ => (true, rest)
      if okExt then
        let (okEnd, rest2) := readCrLf rest1
        if okEnd then (.ok n, { r with data := rest2 })
        else (.error (.ErrBrokenChunk .badSizeLine), { r with data := rest2 })
      else (.error (.ErrBrokenChunk .badSizeLine), { r with data := rest1 })
    else (.error (.ErrBrokenChunk .badSizeLine), r)

/-! ## Reading a fixed number of bytes -/

/-- The state a fixed-size read ends in: the contents of the window `dst`, the number of bytes
placed in it, the error and the source. -/
structure Filled where
  dst : List Byte
  offset : Nat
  err : Option Error
  r : Reader
  deriving DecidableEq, Repr

/-- The `switch` taken when a `Read` delivers no byte (`nn <= 0`): end of stream becomes
`io.ErrUnexpectedEOF`, another failure is passed on, and `(nn, nil)` is reported as an error. -/
def readFailure (err : Option Error) (nn : Nat) : Error :=
  match err with
  | some .EOF => .ErrUnexpectedEOF
  | some e => e
  | none => .readReturnedNil nn

/-- The loop of `chunkedFormReader.appendBodyFixedSize`: `Read` into `dst[offset:]` until
`offset` equals `n`. -/
def chunkedFormReader.appendLoop : Nat → Reader → List Byte → Nat → Nat → Option Filled
  | 0, _, _, _, _ => none
  | fuel + 1, r, dst, n, offset =>
    match r.Read (dst.length - offset) with
    | (got, err, r1) =>
      if got.length = 0 then some ⟨dst, offset, some (readFailure err got.length), r1⟩
      else
        let dst1 := dst.take offset ++ got ++ dst.drop (offset + got.length)
        if n = offset + got.length then some ⟨dst1, offset + got.length, none, r1⟩
        else chunkedFormReader.appendLoop fuel r1 dst1 n (offset + got.length)

/-- The method `chunkedFormReader.appendBodyFixedSize(dst, n)` on the source `r`. -/
def chunkedFormReader.appendBodyFixedSize (r : Reader) (dst : List Byte) (n : Nat) :
    Option Filled :=
  if n = 0 then some ⟨dst, 0, none, r⟩
  else chunkedFormReader.appendLoop (dst.length + 1) r dst n 0

/-- Modelled from the spec: the package-level `appendBodyFixedSize(r, dst, n)` is not among the
sources.  It reads exactly `n` further bytes fully and appends them to `dst`; when the source
ends early it fails with unexpected-end-of-stream (any other failure is passed through) and
returns `dst` with the bytes read so far.  The bytes are gathered by the same read loop as the
method of the adapter. -/
def appendBodyFixedSize (r : Reader) (dst : List Byte) (n : Nat) :
    Option (List Byte × Option Error × Reader) :=
  match chunkedFormReader.appendBodyFixedSize r (List.replicate n 0) n with
  | none => none
  | some f =>
    match f.err with
    | none => some (dst ++ f.dst, none, f.r)
    | some e => some (dst ++ f.dst.take f.offset, some e, f.r)

/-! ## Outcomes -/

/-- The run-time aborts of the modelled code. -/
inductive Panic where
  /-- `panic("BUG: expected zero-length buffer")`. -/
  | expectedZeroLengthBuffer
  /-- A slice expression whose bounds lie outside the capacity of the slice. -/
  | sliceBounds
  /-- `io.CopyBuffer` called with an empty, non-nil buffer. -/
  | emptyCopyBuffer
  deriving DecidableEq, Repr

/-- A call either returns or aborts. -/
inductive Outcome (α : Type) where
  | ret (a : α)
  | panic (why : Panic)
  deriving DecidableEq, Repr

/-- Go's `copy(p, src)`: the buffer `p` afterwards and the number of bytes copied. -/
def copyBytes (p src : List Byte) : List Byte × Nat :=
  (src.take p.length ++ p.drop src.length, min p.length src.length)

/-! ## The parsed form -/

/-- A `multipart.FileHeader`: the file name, the header lines of its part in the order in which
the writer emits them, and what `Open`, reading the opened file and `Close` do. -/
structure FileHeader where
  Filename : List Byte
  Header : List (List Byte × List Byte)
  openErr : Option Error
  content : Reader
  closeErr : Option Error
  deriving DecidableEq, Repr

/-- A `multipart.Form`.  Go ranges over the two maps in an order of its own choosing; the lists
give the entries in the order in which the `range` loops visit them. -/
structure Form where
  Value : List (List Byte × List (List Byte))
  File : List (List Byte × List FileHeader)
  deriving DecidableEq, Repr

/-! ## The chunked-stream adapter -/

/-- The struct `chunkedFormReader`. -/
structure chunkedFormReader where
  r : Reader
  limitSize : Int
  rs : Nat
  chunkSize : Nat
  rd : Nat
  wt : Nat
  buf : List Byte
  deriving DecidableEq, Repr

/-- What a `Read(p)` call leaves behind: the caller's buffer, the count `n`, the error and the
adapter. -/
structure ReadResult where
  p : List Byte
  n : Nat
  err : Option Error
  s : chunkedFormReader
  deriving DecidableEq, Repr

/-- Lines 188-199 of `chunkedFormReader.Read`: split the page off the chunk in flight
(`chunkSize` is the local variable, `r.chunkSize` the field).  The result is the adapter with
`chunkSize` and `rs` updated, the number `n` of payload bytes of the page and the number of
bytes to read, which on the last page of the chunk includes the CRLF. -/
def chunkedFormReader.cut (r : chunkedFormReader) (chunkSize : Nat) :
    chunkedFormReader × Nat × Nat :=
  let bs := 4096
  if chunkSize > bs then
    ({ r with chunkSize := r.chunkSize - bs, rs := r.rs + bs }, bs, bs)
  else
    ({ r with chunkSize := 0, rs := r.rs + chunkSize }, chunkSize, chunkSize + strCRLFLen)

/-- Lines 200-213 of `chunkedFormReader.Read`: read `chunkSize` bytes into `buf[:chunkSize]`,
check the CRLF when the chunk is finished, and copy the `n` payload bytes to `p`. -/
def chunkedFormReader.stage (r : chunkedFormReader) (n chunkSize : Nat) (p : List Byte) :
    Option (Outcome ReadResult) :=
  let r2 := { r with wt := n }
  if chunkSize > r2.buf.length then some (.panic .sliceBounds)
  else
    match chunkedFormReader.appendBodyFixedSize r2.r (r2.buf.take chunkSize) chunkSize with
    | none => none
    | some f =>
      let r3 := { r2 with r := f.r, buf := f.dst ++ r2.buf.drop chunkSize }
      match f.err with
      | some e => some (.ret ⟨p, 0, some e, r3⟩)
      | none =>
        if r3.chunkSize = 0 ∧ (r3.buf.take chunkSize).drop n ≠ strCRLF then
          some (.ret ⟨p, 0, some (.ErrBrokenChunk .noCrlfAtEnd), r3⟩)
        else
          some (.ret ⟨(copyBytes p (r3.buf.take n)).1, (copyBytes p (r3.buf.take n)).2, none,
            { r3 with rd := (copyBytes p (r3.buf.take n)).2 }⟩)

/-- Lines 188-213 of `chunkedFormReader.Read`: page at most 4096 bytes of the chunk in flight
into `buf` and hand them to `p`. -/
def chunkedFormReader.page (r : chunkedFormReader) (chunkSize : Nat) (p : List Byte) :
    Option (Outcome ReadResult) :=
  chunkedFormReader.stage (r.cut chunkSize).1 (r.cut chunkSize).2.1 (r.cut chunkSize).2.2 p

/-- The method `chunkedFormReader.Read(p)`. -/
def chunkedFormReader.Read (r : chunkedFormReader) (p : List Byte) :
    Option (Outcome ReadResult) :=
  if r.wt > r.rd then
    if r.wt > r.buf.length then some (.panic .sliceBounds)
    else
      some (.ret ⟨(copyBytes p ((r.buf.take r.wt).drop r.rd)).1, r.wt - r.rd, none,
        { r with wt := 0, rd := 0 }⟩)
  else if r.chunkSize = 0 then
    match parseChunkSize r.r with
    | (.error e, r1) => some (.ret ⟨p, 0, some e, { r with r := r1 }⟩)
    | (.ok chunkSize, r1) =>
      if chunkSize = 0 then some (.ret ⟨p, 0, none, { r with r := r1 }⟩)
      else if r.limitSize > 0 ∧ (r.rs : Int) + chunkSize > r.limitSize then
        some (.ret ⟨p, 0, some .ErrBodyTooLarge, { r with r := r1 }⟩)
      else chunkedFormReader.page { r with r := r1, chunkSize := chunkSize } chunkSize p
  else chunkedFormReader.page r r.chunkSize p

/-! ## The bounded chunked-body reader -/

/-- The adapter that `readBodyChunked2` creates on the source `r` with the limit `limitSize`:
zero counters and a buffer of 4098 bytes. -/
def chunkedFormReader.new (r : Reader) (limitSize : Int) : chunkedFormReader :=
  ⟨r, limitSize, 0, 0, 0, 0, List.replicate 4098 0⟩

/-- The fields of `Request` that `readBodyChunked2` reads and writes: the boundary found in the
header (`req.Header.MultipartFormBoundary()`, empty when the body is not a multipart form),
`multipartFormBoundary` and `multipartForm`. -/
structure Request where
  headerBoundary : List Byte
  multipartFormBoundary : List Byte
  multipartForm : Option Form
  deriving DecidableEq, Repr

/-- The external form decoder `multipart.NewReader(src, boundary).ReadForm(...)`: from the
adapter it pulls from and the boundary to the form, the error and the adapter afterwards. -/
abbrev FormDecoder :=
  chunkedFormReader → List Byte → Option Form × Option Error × chunkedFormReader

/-- What `readBodyChunked2` returns and leaves behind: the request, the returned buffer, the
error and the source. -/
structure BodyResult where
  req : Request
  dst : List Byte
  err : Option Error
  r : Reader
  deriving DecidableEq, Repr

/-- The `for` loop of the branch without a multipart boundary (lines 124-145). -/
def readBodyChunked2.loop :
    Nat → Reader → Int → List Byte → Option (List Byte × Option Error × Reader)
  | 0, _, _, _ => none
  | fuel + 1, r, maxBodySize, dst =>
    match parseChunkSize r with
    | (.error e, r1) => some (dst, some e, r1)
    | (.ok chunkSize, r1) =>
      if chunkSize = 0 then some (dst, none, r1)
      else if maxBodySize > 0 ∧ (dst.length : Int) + chunkSize > maxBodySize then
        some (dst, some .ErrBodyTooLarge, r1)
      else
        match appendBodyFixedSize r1 dst (chunkSize + strCRLFLen) with
        | none => none
        | some (dst1, some e, r2) => some (dst1, some e, r2)
        | some (dst1, none, r2) =>
          if dst1.drop (dst1.length - strCRLFLen) ≠ strCRLF then
            some (dst1, some (.ErrBrokenChunk .noCrlfAtEnd), r2)
          else readBodyChunked2.loop fuel r2 maxBodySize (dst1.take (dst1.length - strCRLFLen))

/-- The method `Request.readBodyChunked2(r, maxBodySize, dst)`.  The constant
`defaultMaxInMemoryFileSize` and the external form decoder are parameters. -/
def readBodyChunked2 (defaultMaxInMemoryFileSize : Int) (decode : FormDecoder) (req : Request)
    (r : Reader) (maxBodySize : Int) (dst : List Byte) : Option (Outcome BodyResult) :=
  if dst.length > 0 then some (.panic .expectedZeroLengthBuffer)
  else if req.headerBoundary = [] then
    let maxBodySize1 :=
      if maxBodySize > defaultMaxInMemoryFileSize then defaultMaxInMemoryFileSize else maxBodySize
    match readBodyChunked2.loop (r.data.length + 1) r maxBodySize1 dst with
    | none => none
    | some (dst1, err, r1) => some (.ret ⟨req, dst1, err, r1⟩)
  else
    match decode (chunkedFormReader.new r maxBodySize) req.headerBoundary with
    | (form, err, a) =>
      some (.ret ⟨{ req with multipartFormBoundary := req.headerBoundary, multipartForm := form },
        dst ++ [0], err, a.r⟩)

/-! ## Well-formed chunked bodies -/

/-- The number written by a string of hexadecimal digits, most significant digit first. -/
def hexValue (ds : List Byte) : Nat := ds.foldl (fun n d => n * 16 + hex2int d) 0

/-- A non-empty string of hexadecimal digits. -/
def okDigits (ds : List Byte) : Prop := ds ≠ [] ∧ ∀ d ∈ ds, hex2int d < 16

/-- A chunk extension: nothing, or `;` followed by bytes other than CR and LF. -/
def okExt (ext : List Byte) : Prop :=
  ext = [] ∨ (ext.head? = some 59 ∧ 13 ∉ ext ∧ 10 ∉ ext)

instance (ds : List Byte) : Decidable (okDigits ds) := by
  unfold okDigits; infer_instance

instance (ext : List Byte) : Decidable (okExt ext) := by
  unfold okExt; infer_instance

/-- A chunk on the wire: the digits of its size, its extension and its payload. -/
structure Chunk where
  digits : List Byte
  ext : List Byte
  payload : List Byte
  deriving DecidableEq, Repr

/-- A well-formed data chunk `<hex-size>[;ext] CRLF payload CRLF`: the declared size is the
length of the payload and is not zero. -/
def Chunk.wellFormed (c : Chunk) : Prop :=
  okDigits c.digits ∧ okExt c.ext ∧ hexValue c.digits = c.payload.length ∧ 0 < c.payload.length

instance (c : Chunk) : Decidable c.wellFormed := by
  unfold Chunk.wellFormed; infer_instance

/-- The size line of a chunk, with its CRLF. -/
def sizeLine (digits ext : List Byte) : List Byte := digits ++ ext ++ strCRLF

/-- The bytes of a chunk. -/
def Chunk.encode (c : Chunk) : List Byte := sizeLine c.digits c.ext ++ c.payload ++ strCRLF

/-- The bytes of a sequence of chunks. -/
def encodeChunks : List Chunk → List Byte
  | [] => []
  | c :: cs => c.encode ++ encodeChunks cs

/-- The in-order concatenation of the payloads of a sequence of chunks. -/
def payloads : List Chunk → List Byte
  | [] => []
  | c :: cs => c.payload ++ payloads cs

/-- The ceiling that the branch without a multipart boundary works with: `maxBodySize`, lowered
to `defaultMaxInMemoryFileSize` when it is larger (lines 121-123). -/
def clampedCeiling (defaultMaxInMemoryFileSize maxBodySize : Int) : Int :=
  min maxBodySize defaultMaxInMemoryFileSize

/-! ## Sample inputs -/

/-- A request whose header carries no multipart boundary. -/
def plainRequest : Request := ⟨[], [], none⟩

/-- A form decoder that pulls nothing from the adapter. -/
def idleDecoder : FormDecoder := fun a _ => (none, none, a)

/-- A chunk of 16 MiB + 1 bytes; its size line reads `1000001`. -/
def bigChunk : Chunk := ⟨[49, 48, 48, 48, 48, 48, 49], [], List.replicate 16777217 97⟩

/-- The chunk `3 CRLF abc CRLF`. -/
def abcChunk : Chunk := ⟨[51], [], [97, 98, 99]⟩

/-! ## Driving the adapter -/

/-- What a run of `Read` calls delivered: the bytes `p[:n]` of the calls, concatenated (as far
as `p` holds them), the counts `n` the calls returned, whether the run ended at the call that
returned 0 bytes with a nil error, and the error that ended it otherwise. -/
structure Drained where
  out : List Byte
  counts : List Nat
  ended : Bool
  err : Option Error
  deriving DecidableEq, Repr

/-- Successive `Read` calls on the adapter, one for each caller buffer in turn, up to the call
that returns 0 bytes with a nil error or fails. -/
def chunkedFormReader.readAll :
    chunkedFormReader → List (List Byte) → Option (Outcome Drained)
  | _, [] => some (.ret ⟨[], [], false, none⟩)
  | a, p :: ps =>
    match a.Read p with
    | none => none
    | some (.panic w) => some (.panic w)
    | some (.ret res) =>
      match res.err with
      | some e => some (.ret ⟨[], [res.n], false, some e⟩)
      | none =>
        if res.n = 0 then some (.ret ⟨[], [res.n], true, none⟩)
        else
          match chunkedFormReader.readAll res.s ps with
          | none => none
          | some (.panic w) => some (.panic w)
          | some (.ret d) => some (.ret ⟨res.p.take res.n ++ d.out, res.n :: d.counts, d.ended, d.err⟩)

/-- The projection of what `readBodyChunked2` returns on the buffer and the error. -/
def bodyOf (o : Option (Outcome BodyResult)) : Option (Outcome (List Byte × Option Error)) :=
  match o with
  | none => none
  | some (.panic w) => some (.panic w)
  | some (.ret b) => some (.ret (b.dst, b.err))

/-- Successive `Read` calls on the adapter, one for each caller buffer in turn and whatever the
calls return: the adapter after the calls and the counts `n` that the calls returned. -/
def chunkedFormReader.run :
    chunkedFormReader → List (List Byte) → Option (Outcome (chunkedFormReader × List Nat))
  | a, [] => some (.ret (a, []))
  | a, p :: ps =>
    match a.Read p with
    | none => none
    | some (.panic w) => some (.panic w)
    | some (.ret res) =>
      match chunkedFormReader.run res.s ps with
      | none => none
      | some (.panic w) => some (.panic w)
      | some (.ret (b, ns)) => some (.ret (b, res.n :: ns))

/-- The invariant of an adapter with the limit `limit` whose calls have returned `acc` bytes so
far: the buffer has its 4098 bytes, the cumulative count and what is left of the chunk in flight
stay within the limit, and the bytes returned and still staged are covered by the cumulative
count. -/
def chunkedFormReader.inv (limit : Int) (acc : Nat) (a : chunkedFormReader) : Prop :=
  a.buf.length = 4098 ∧ a.limitSize = limit ∧ (a.rs : Int) + a.chunkSize ≤ limit
    ∧ acc + (a.wt - a.rd) ≤ a.rs ∧ a.wt ≤ 4096

/-- The chunked body `3 CRLF abc CRLF 0 CRLF`. -/
def sampleBody : List Byte := [51, 13, 10, 97, 98, 99, 13, 10, 48, 13, 10]

/-! ## The bounded copy primitive -/

/-- The struct `myLimitReader`. -/
structure myLimitReader where
  limit : Int
  n : Int
  r : Reader
  deriving DecidableEq, Repr

/-- The method `myLimitReader.Read(p)` with `len(p) = k`: the bytes that the underlying reader
placed at the start of `p`, the count `n` and the error returned, and the reader afterwards. -/
def myLimitReader.Read (l : myLimitReader) (k : Nat) :
    List Byte × Int × Option Error × myLimitReader :=
  match l.r.Read k with
  | (got, some e, r1) => (got, got.length, some e, { l with r := r1 })
  | (got, none, r1) =>
    if l.n + got.length ≥ l.limit then
      (got, l.limit, some .EOF, { l with r := r1, n := l.n + got.length })
    else (got, got.length, none, { l with r := r1, n := l.n + got.length })

/-- What a copy leaves behind: the destination, the buffer used for the copy, the number of
bytes written, the error and the source. -/
structure Copied where
  w : List Byte
  buf : List Byte
  written : Int
  err : Option Error
  src : myLimitReader
  deriving DecidableEq, Repr

/-- The loop of `io.CopyBuffer(dst, src, buf)` for a source without `WriteTo` and a destination
without `ReadFrom` whose `Write` appends to `w` and never fails: `Read` into `buf`, write
`buf[0:nr]` when `nr > 0`, stop at the first error, `io.EOF` being no error of the copy.  A
count `nr` beyond the capacity of `buf` aborts the slice expression. -/
def copyBufferLoop : Nat → List Byte → myLimitReader → List Byte → Int → Option (Outcome Copied)
  | 0, _, _, _, _ => none
  | fuel + 1, w, src, buf, written =>
    match src.Read buf.length with
    | (got, nr, er, src1) =>
      if nr > 0 then
        if nr.toNat > (got ++ buf.drop got.length).length then some (.panic .sliceBounds)
        else
          match er with
          | some e =>
            some (.ret ⟨w ++ (got ++ buf.drop got.length).take nr.toNat,
              got ++ buf.drop got.length, written + nr,
              if e = .EOF then none else some e, src1⟩)
          | none =>
            copyBufferLoop fuel (w ++ (got ++ buf.drop got.length).take nr.toNat) src1
              (got ++ buf.drop got.length) (written + nr)
      else
        match er with
        | some e =>
          some (.ret ⟨w, got ++ buf.drop got.length, written,
            if e = .EOF then none else some e, src1⟩)
        | none => copyBufferLoop fuel w src1 (got ++ buf.drop got.length) written

/-- The function `limitCopyZeroAlloc(w, r, limit)`, the buffer taken from `copyBufPool` being
`pool`.  `io.CopyBuffer` aborts when it is handed an empty buffer. -/
def limitCopyZeroAlloc (pool : List Byte) (w : List Byte) (r : Reader) (limit : Int) :
    Option (Outcome Copied) :=
  if pool.length = 0 then some (.panic .emptyCopyBuffer)
  else copyBufferLoop (r.data.length + 2) w ⟨limit, 0, r⟩ pool 0

/-! ## The bounded multipart-form encoder -/

/-- The bytes of an ASCII string. -/
def ascii (s : String) : List Byte := s.toList.map (fun c => c.toNat)

/-- Modelled from the spec: the `multipart.Writer` of the package `zzz/mime/multipart` is not
among the sources.  The writer holds the boundary and whether a part has been opened; its
output goes to the byte buffer `w.B`, which is passed along. -/
structure Writer where
  boundary : List Byte
  lastpart : Bool
  deriving DecidableEq, Repr

/-- The header lines `key: value CRLF` of a part. -/
def headerLines : List (List Byte × List Byte) → List Byte
  | [] => []
  | (k, v) :: rest => k ++ ascii ": " ++ v ++ strCRLF ++ headerLines rest

/-- Modelled from the spec: `Writer.CreatePart(header)` opens a new part: the boundary line
(after a CRLF when a part precedes it), the header lines and an empty line, all written in
full. -/
def Writer.CreatePart (mw : Writer) (B : List Byte) (header : List (List Byte × List Byte)) :
    List Byte × Writer :=
  (B ++ (if mw.lastpart then strCRLF else []) ++ ascii "--" ++ mw.boundary ++ strCRLF
      ++ headerLines header ++ strCRLF,
    { mw with lastpart := true })

/-- The quoting of a field name inside the `Content-Disposition` header. -/
def escapeQuotes : List Byte → List Byte
  | [] => []
  | c :: cs => (if c = 92 ∨ c = 34 then [92, c] else [c]) ++ escapeQuotes cs

/-- Modelled from the spec: `Writer.WriteField(fieldname, value)` opens a part whose header is
the `Content-Disposition` of the field and writes the value. -/
def Writer.WriteField (mw : Writer) (B : List Byte) (fieldname value : List Byte) :
    List Byte × Writer :=
  let part := mw.CreatePart B [(ascii "Content-Disposition",
    ascii "form-data; name=\"" ++ escapeQuotes fieldname ++ ascii "\"")]
  (part.1 ++ value, part.2)

/-- The closing boundary line: two hyphens, the boundary, two hyphens, CRLF. -/
def closingLine (boundary : List Byte) : List Byte :=
  ascii "--" ++ boundary ++ ascii "--" ++ strCRLF

/-- Modelled from the spec: `Writer.Close()` finalizes the writer: a CRLF and the closing
boundary line. -/
def Writer.Close (mw : Writer) (B : List Byte) : List Byte :=
  B ++ strCRLF ++ closingLine mw.boundary

/-- The inner loop over the values of one field name (lines 61-65). -/
def writeValue (k : List Byte) : Writer → List Byte → List (List Byte) → List Byte × Writer
  | mw, B, [] => (B, mw)
  | mw, B, v :: vv => writeValue k (mw.WriteField B k v).2 (mw.WriteField B k v).1 vv

/-- The loop over the field names (lines 60-66). -/
def writeValues : Writer → List Byte → List (List Byte × List (List Byte)) → List Byte × Writer
  | mw, B, [] => (B, mw)
  | mw, B, (k, vv) :: rest =>
    writeValues (writeValue k mw B vv).2 (writeValue k mw B vv).1 rest

/-- The state of the file loops: the writer, the buffer `w.B`, the names of the files on which
`Open` was called, in order, and the pooled copy buffer. -/
structure Encoding where
  mw : Writer
  B : List Byte
  opened : List (List Byte)
  pool : List Byte
  deriving DecidableEq, Repr

/-- The inner loop over the files of one field name (lines 77-96), `limitFormSize` being coerced
already.  The error is the one that `writeMultipartForm` returns at once. -/
def writeFiles (limitFormSize : Int) :
    Encoding → List FileHeader → Option (Outcome (Encoding × Option Error))
  | st, [] => some (.ret (st, none))
  | st, fv :: fvv =>
    if (st.B.length : Int) ≥ limitFormSize then some (.ret (st, none))
    else
      match fv.openErr with
      | some e =>
        some (.ret (⟨(st.mw.CreatePart st.B fv.Header).2, (st.mw.CreatePart st.B fv.Header).1,
            st.opened ++ [fv.Filename], st.pool⟩, some (.cannotOpenFile e)))
      | none =>
        match limitCopyZeroAlloc st.pool (st.mw.CreatePart st.B fv.Header).1 fv.content
            (limitFormSize - ((st.mw.CreatePart st.B fv.Header).1.length : Int)) with
        | none => none
        | some (.panic why) => some (.panic why)
        | some (.ret c) =>
          match c.err with
          | some e =>
            some (.ret (⟨(st.mw.CreatePart st.B fv.Header).2, c.w, st.opened ++ [fv.Filename],
              c.buf⟩, some (.copyFile e)))
          | none =>
            match fv.closeErr with
            | some e =>
              some (.ret (⟨(st.mw.CreatePart st.B fv.Header).2, c.w,
                st.opened ++ [fv.Filename], c.buf⟩, some (.cannotCloseFile e)))
            | none =>
              writeFiles limitFormSize
                ⟨(st.mw.CreatePart st.B fv.Header).2, c.w, st.opened ++ [fv.Filename], c.buf⟩ fvv

/-- The loop over the field names of the files (lines 76-97). -/
def writeFileGroups (limitFormSize : Int) :
    Encoding → List (List Byte × List FileHeader) → Option (Outcome (Encoding × Option Error))
  | st, [] => some (.ret (st, none))
  | st, (_, fvv) :: rest =>
    match writeFiles limitFormSize st fvv with
    | none => none
    | some (.panic why) => some (.panic why)
    | some (.ret (st1, some e)) => some (.ret (st1, some e))
    | some (.ret (st1, none)) => writeFileGroups limitFormSize st1 rest

/-- The ceiling after the coercion of lines 68-70. -/
def coerceLimit (limitFormSize : Int) : Int :=
  if limitFormSize < 64 then 1024 else limitFormSize

/-- What `writeMultipartForm` returns and leaves behind: the buffer `w.B`, the names of the
files on which `Open` was called, the pooled copy buffer and the error. -/
structure Written where
  B : List Byte
  opened : List (List Byte)
  pool : List Byte
  err : Option Error
  deriving DecidableEq, Repr

/-- The function `writeMultipartForm(w, f, boundary, limitFormSize)`.  `accept` says which
boundaries `SetBoundary` of the absent writer takes, `pool` is the buffer that `copyBufPool`
hands out, `B` the contents of `w` before the call. -/
def writeMultipartForm (accept : List Byte → Bool) (pool : List Byte) (B : List Byte) (f : Form)
    (boundary : List Byte) (limitFormSize : Int) : Option (Outcome Written) :=
  if boundary.length = 0 then some (.ret ⟨B, [], pool, some .emptyBoundary⟩)
  else if accept boundary = false then some (.ret ⟨B, [], pool, some .cannotUseBoundary⟩)
  else
    if ((writeValues ⟨boundary, false⟩ B f.Value).1.length : Int) ≥ coerceLimit limitFormSize then
      some (.ret ⟨(writeValues ⟨boundary, false⟩ B f.Value).1, [], pool, none⟩)
    else
      match writeFileGroups (coerceLimit limitFormSize)
          ⟨(writeValues ⟨boundary, false⟩ B f.Value).2,
            (writeValues ⟨boundary, false⟩ B f.Value).1, [], pool⟩ f.File with
      | none => none
      | some (.panic why) => some (.panic why)
      | some (.ret (st, some e)) => some (.ret ⟨st.B, st.opened, st.pool, some e⟩)
      | some (.ret (st, none)) => some (.ret ⟨st.mw.Close st.B, st.opened, st.pool, none⟩)

/-- The projection of what a copy returns on the destination, the count and the error. -/
def copiedOf (o : Option (Outcome Copied)) : Option (Outcome (List Byte × Int × Option Error)) :=
  match o with
  | none => none
  | some (.panic w) => some (.panic w)
  | some (.ret c) => some (.ret (c.w, c.written, c.err))

/-- The projection of what `writeMultipartForm` returns on the buffer, the names of the files
opened and the error. -/
def writtenOf (o : Option (Outcome Written)) :
    Option (Outcome (List Byte × List (List Byte) × Option Error)) :=
  match o with
  | none => none
  | some (.panic w) => some (.panic w)
  | some (.ret c) => some (.ret (c.B, c.opened, c.err))

/-- The buffer that `copyBufPool` hands out: 4096 bytes. -/
def pool4096 : List Byte := List.replicate 4096 0

/-- A file part `f.bin` with one header line and the given content. -/
def sampleFile (content : Reader) : FileHeader :=
  ⟨ascii "f.bin", [(ascii "Content-Type", ascii "application/octet-stream")], none, content, none⟩

/-- A form with the field `a` holding one value and the file field `f` holding one file. -/
def sampleForm (value : List Byte) (content : Reader) : Form :=
  ⟨[(ascii "a", [value])], [(ascii "f", [sampleFile content])]⟩

/-- A `SetBoundary` that takes every boundary. -/
def acceptAll : List Byte → Bool := fun _ => true

/-- A form with the field `a` holding the value `bb` and the file field `f` holding two files of
40 bytes each, `f.bin` and `g.bin`. -/
def twoFileForm : Form :=
  ⟨[(ascii "a", [[98, 98]])],
    [(ascii "f", [sampleFile ⟨List.replicate 40 120, [], .EOF⟩,
      { sampleFile ⟨List.replicate 40 121, [], .EOF⟩ with Filename := ascii "g.bin" }])]⟩

/-! ## The parts of a serialized form -/

/-- The header of the part of a field value: its `Content-Disposition`. -/
def fieldHeader (fieldname : List Byte) : List (List Byte × List Byte) :=
  [(ascii "Content-Disposition",
    ascii "form-data; name=\"" ++ escapeQuotes fieldname ++ ascii "\"")]

/-- The parts of the field values, name by name and, under each name, value by value: the header
and the body of each. -/
def fieldParts :
    List (List Byte × List (List Byte)) → List (List (List Byte × List Byte) × List Byte)
  | [] => []
  | (k, vv) :: rest => vv.map (fun v => (fieldHeader k, v)) ++ fieldParts rest

/-- The files of the file map, name by name and, under each name, file by file. -/
def filesOf : List (List Byte × List FileHeader) → List FileHeader
  | [] => []
  | (_, fvv) :: rest => fvv ++ filesOf rest

/-- The bytes of a sequence of parts written one after the other, `lastpart` saying whether a
part precedes them: for each part the boundary line (after a CRLF when a part precedes it), the
header lines, an empty line and the body. -/
def partsFrom (boundary : List Byte) :
    Bool → List (List (List Byte × List Byte) × List Byte) → List Byte
  | _, [] => []
  | lastpart, (header, body) :: rest =>
    (if lastpart then strCRLF else []) ++ ascii "--" ++ boundary ++ strCRLF
      ++ headerLines header ++ strCRLF ++ body ++ partsFrom boundary true rest

/-- Whether a part precedes what follows a sequence of parts. -/
def lastpartAfter {α : Type} (lastpart : Bool) : List α → Bool
  | [] => lastpart
  | _ :: _ => true

/-- Every part of the sequence is started while the output `B` written so far is shorter than
`limit`. -/
def startedBelow (limit : Int) (boundary : List Byte) :
    List Byte → Bool → List (List (List Byte × List Byte) × List Byte) → Prop
  | _, _, [] => True
  | B, lastpart, part :: rest =>
    (B.length : Int) < limit
      ∧ startedBelow limit boundary (B ++ partsFrom boundary lastpart [part]) true rest

/-- The files that were handled, each with the bytes copied into its part, as parts. -/
def fileParts (handled : List (FileHeader × List Byte)) :
    List (List (List Byte × List Byte) × List Byte) :=
  handled.map (fun d => (d.1.Header, d.2))

/-- Two forms that list the entries of the same two maps, possibly in different orders: Go fixes
no order for `range` over a map, so each is a way in which the loops may visit the maps. -/
def Form.sameMaps (f g : Form) : Prop := f.Value.Perm g.Value ∧ f.File.Perm g.File

/-- A form with the field names `a` and `b`, listed in this order. -/
def formAB : Form := ⟨[(ascii "a", [[120]]), (ascii "b", [[121]])], []⟩

/-- The same form with the two field names visited in the other order. -/
def formBA : Form := ⟨[(ascii "b", [[121]]), (ascii "a", [[120]])], []⟩

/-! ## The size-capped body of a request -/

/-- The fields of `Request` that `BodyLimit` reads: `bodyRaw` (`none` for nil), what
`req.onlyMultipartForm()` and `req.bodyBytes()` return, the parsed form and its boundary. -/
structure BodyRequest where
  bodyRaw : Option (List Byte)
  onlyMultipartForm : Bool
  bodyBytes : List Byte
  multipartForm : Form
  multipartFormBoundary : List Byte
  deriving DecidableEq, Repr

/-- The method `Request.marshalMultipartForm(limitFormSize)`: the bytes written to a fresh
buffer, or nil and the error. -/
def marshalMultipartForm (accept : List Byte → Bool) (pool : List Byte) (req : BodyRequest)
    (limitFormSize : Int) : Option (Outcome (List Byte × Option Error)) :=
  match writeMultipartForm accept pool [] req.multipartForm req.multipartFormBoundary
      limitFormSize with
  | none => none
  | some (.panic why) => some (.panic why)
  | some (.ret w) =>
    match w.err with
    | some e => some (.ret ([], some e))
    | none => some (.ret (w.B, none))

/-- The method `Request.BodyLimit(limitFormSize)`, `errorText` giving the bytes of `err.Error()`. -/
def BodyLimit (accept : List Byte → Bool) (pool : List Byte) (errorText : Error → List Byte)
    (req : BodyRequest) (limitFormSize : Int) : Option (Outcome (List Byte)) :=
  match req.bodyRaw with
  | some raw => some (.ret raw)
  | none =>
    if req.onlyMultipartForm then
      match marshalMultipartForm accept pool req limitFormSize with
      | none => none
      | some (.panic why) => some (.panic why)
      | some (.ret (_, some e)) => some (.ret (errorText e))
      | some (.ret (body, none)) => some (.ret body)
    else some (.ret req.bodyBytes)

/-- A request that holds only the form with the field `a = b` and the file `f.bin` with the
given content, the boundary being `b`. -/
def formRequest (content : Reader) : BodyRequest :=
  ⟨none, true, [], sampleForm [98] content, ascii "b"⟩

/-- An `err.Error()` that renders every error as `error`. -/
def plainErrorText : Error → List Byte := fun _ => ascii "error"

/-! ## Traces of `Read` calls -/

/-- Successive `Read` calls on the adapter, one for each caller buffer in turn and whatever the
calls return: what each call left behind, in the order of the calls. -/
def chunkedFormReader.trace :
    chunkedFormReader → List (List Byte) → Option (Outcome (List ReadResult))
  | _, [] => some (.ret [])
  | a, p :: ps =>
    match a.Read p with
    | none => none
    | some (.panic w) => some (.panic w)
    | some (.ret res) =>
      match chunkedFormReader.trace res.s ps with
      | none => none
      | some (.panic w) => some (.panic w)
      | some (.ret rs) => some (.ret (res :: rs))

/-- What a caller sees of a `Read` call: its buffer afterwards, the count `n`, the error, and
the cursors `rd` and `wt` of the adapter. -/
structure Seen where
  p : List Byte
  n : Nat
  err : Option Error
  rd : Nat
  wt : Nat
  deriving DecidableEq, Repr

/-- The projection of what a `Read` call left behind on what the caller sees. -/
def ReadResult.view (res : ReadResult) : Seen :=
  ⟨res.p, res.n, res.err, res.s.rd, res.s.wt⟩

/-- The projection of a trace on the views of its calls. -/
def viewsOf (o : Option (Outcome (List ReadResult))) : Option (Outcome (List Seen)) :=
  match o with
  | none => none
  | some (.panic w) => some (.panic w)
  | some (.ret rs) => some (.ret (rs.map ReadResult.view))

/-- The bounds of the staging cursors: the buffer has its 4098 bytes and both cursors are at
most 4096. -/
def chunkedFormReader.bounded (a : chunkedFormReader) : Prop :=
  a.buf.length = 4098 ∧ a.wt ≤ 4096 ∧ a.rd ≤ 4096

/-- The adapter with `bc` of the chunk `abc` still staged (`rd = 1`, `wt = 3`), no chunk in
flight and the source at the terminal chunk `0 CRLF`. -/
def stagedAdapter : chunkedFormReader :=
  ⟨⟨[48, 13, 10], [], .EOF⟩, 0, 3, 0, 1, 3, [97, 98, 99, 13, 10] ++ List.replicate 4093 0⟩

/-- The chunked body `3 CRLF abc CRLF`, then the chunk `1 CRLF a` followed by `XY` instead of
CRLF, then `0 CRLF`. -/
def brokenBody : List Byte :=
  [51, 13, 10, 97, 98, 99, 13, 10, 49, 13, 10, 97, 88, 89, 48, 13, 10]

/-- What a `myLimitReader.Read` call returns, without the reader: the number of bytes that the
underlying reader placed in `p`, the count `n` and the error. -/
def countsOf (x : List Byte × Int × Option Error × myLimitReader) : Nat × Int × Option Error :=
  (x.1.length, x.2.1, x.2.2.1)

/-! ## Lemmas on sources and chunk-size lines -/

theorem Reader.quota_pos (r : Reader) {k : Nat} (hk : 0 < k) : 0 < r.quota k := by
  unfold Reader.quota
  split <;> omega

theorem Reader.quota_le (r : Reader) (k : Nat) : r.quota k ≤ k := by
  unfold Reader.quota
  split <;> omega

theorem readHexDigits_append (ds : List Byte) (hds : ∀ d ∈ ds, hex2int d < 16) (n : Nat)
    (rest : List Byte) (hrest : ∀ c ∈ rest.head?, ¬ hex2int c < 16) :
    readHexDigits n (ds ++ rest) = (ds.foldl (fun n d => n * 16 + hex2int d) n, rest) := by
  induction ds generalizing n with
  | nil =>
    cases rest with
    | nil => simp [readHexDigits]
    | cons c cs =>
      have hc : ¬ hex2int c < 16 := hrest c (by simp)
      simp [readHexDigits, hc]
  | cons d ds ih =>
    have hd : hex2int d < 16 := hds d (by simp)
    have hds1 : ∀ x ∈ ds, hex2int x < 16 := fun x hx => hds x (by simp [hx])
    simp only [List.cons_append, readHexDigits, hd, if_true, List.foldl_cons]
    exact ih hds1 _

theorem skipExt_append (e : List Byte) (h13 : 13 ∉ e) (h10 : 10 ∉ e) (rest : List Byte) :
    skipExt (e ++ 13 :: rest) = (true, 13 :: rest) := by
  induction e with
  | nil => simp [skipExt]
  | cons c cs ih =>
    have hc13 : c ≠ 13 := fun h => h13 (by simp [h])
    have hc10 : c ≠ 10 := fun h => h10 (by simp [h])
    have ih1 := ih (fun h => h13 (by simp [h])) (fun h => h10 (by simp [h]))
    simp [skipExt, hc13, hc10, ih1]

/-- A well-formed size line parses to the number its digits write, and the cursor ends right
after the line. -/
theorem parseChunkSize_sizeLine (ds ext : List Byte) (hds : okDigits ds) (hext : okExt ext)
    (rest : List Byte) (sched : List Nat) (fin : Error) :
    parseChunkSize ⟨sizeLine ds ext ++ rest, sched, fin⟩ = (.ok (hexValue ds), ⟨rest, sched, fin⟩) := by
  obtain ⟨hne, hhex⟩ := hds
  cases ds with
  | nil => exact absurd rfl hne
  | cons d ds1 =>
    have hd : hex2int d < 16 := hhex d (by simp)
    have h13 : ¬ hex2int 13 < 16 := by decide
    have h59 : ¬ hex2int 59 < 16 := by decide
    rcases hext with hnil | ⟨hhead, h13e, h10e⟩
    · subst hnil
      have hread := readHexDigits_append (d :: ds1) hhex 0 (13 :: 10 :: rest)
        (by intro c hc; simp at hc; subst hc; exact h13)
      simp only [sizeLine, strCRLF, List.append_nil, List.append_assoc, List.cons_append,
        List.nil_append] at hread ⊢
      simp only [parseChunkSize, hd, if_true, hread, readCrLf, hexValue]
    · cases ext with
      | nil => simp at hhead
      | cons e0 e =>
        simp only [List.head?_cons, Option.some.injEq] at hhead
        subst hhead
        have h13e1 : 13 ∉ e := fun h => h13e (by simp [h])
        have h10e1 : 10 ∉ e := fun h => h10e (by simp [h])
        have hread := readHexDigits_append (d :: ds1) hhex 0 (59 :: (e ++ 13 :: 10 :: rest))
          (by intro c hc; simp at hc; subst hc; exact h59)
        have hskip := skipExt_append e h13e1 h10e1 (10 :: rest)
        simp only [sizeLine, strCRLF, List.append_assoc, List.cons_append,
          List.nil_append] at hread ⊢
        simp only [parseChunkSize, hd, if_true, hread, hskip, readCrLf, hexValue]

theorem Reader.Read_of_data (r : Reader) (k : Nat) (hk : 0 < k) (hd : r.data ≠ []) :
    r.Read k = (r.data.take (r.quota k), none,
      ⟨r.data.drop (r.quota k), r.sched.tail, r.fin⟩) := by
  unfold Reader.Read
  have hk0 : k ≠ 0 := by omega
  cases hdata : r.data with
  | nil => exact absurd hdata hd
  | cons x xs => simp [hk0]

theorem Reader.Read_of_nil (r : Reader) (k : Nat) (hk : 0 < k) (hd : r.data = []) :
    r.Read k = ([], some r.fin, r) := by
  unfold Reader.Read
  have hk0 : k ≠ 0 := by omega
  simp [hk0, hd]

/-- When the source holds the bytes that are still missing, the read loop fills the window with
them, in source order, and consumes exactly these bytes. -/
theorem chunkedFormReader.appendLoop_full (fuel : Nat) :
    ∀ (r : Reader) (dst : List Byte) (n offset : Nat), dst.length = n → offset < n →
      n - offset ≤ r.data.length → n - offset ≤ fuel →
      ∃ sched1, chunkedFormReader.appendLoop fuel r dst n offset =
        some ⟨dst.take offset ++ r.data.take (n - offset), n, none,
          ⟨r.data.drop (n - offset), sched1, r.fin⟩⟩ := by
  induction fuel with
  | zero => intro r dst n offset _ h1 _ h3; omega
  | succ fuel ih =>
    intro r dst n offset hlen hoff hdata hfuel
    have hk : 0 < dst.length - offset := by omega
    have hne : r.data ≠ [] := by
      intro h; rw [h] at hdata; simp at hdata; omega
    have hq1 := r.quota_pos hk
    have hq2 := r.quota_le (dst.length - offset)
    have hgot : (r.data.take (r.quota (dst.length - offset))).length
        = r.quota (dst.length - offset) := by
      rw [List.length_take]; omega
    unfold chunkedFormReader.appendLoop
    rw [Reader.Read_of_data r _ hk hne]
    simp only [hgot]
    have hq0 : r.quota (dst.length - offset) ≠ 0 := by omega
    simp only [hq0, if_false]
    by_cases hn : n = offset + r.quota (dst.length - offset)
    · refine ⟨r.sched.tail, ?_⟩
      have hq : r.quota (dst.length - offset) = n - offset := by omega
      have hdrop : dst.drop (offset + r.quota (dst.length - offset)) = [] := by
        apply List.drop_eq_nil_of_le; omega
      rw [if_pos hn, hdrop, List.append_nil, ← hn, hq]
    · simp only [if_neg hn]
      set q := r.quota (dst.length - offset) with hqdef
      have hlen1 : (dst.take offset ++ r.data.take q ++ dst.drop (offset + q)).length = n := by
        simp only [List.length_append, List.length_take, List.length_drop]; omega
      obtain ⟨s1, hs1⟩ := ih ⟨r.data.drop q, r.sched.tail, r.fin⟩
        (dst.take offset ++ r.data.take q ++ dst.drop (offset + q)) n (offset + q) hlen1
        (by omega) (by simp only [List.length_drop]; omega) (by omega)
      refine ⟨s1, ?_⟩
      rw [hs1]
      have htake : (dst.take offset ++ r.data.take q ++ dst.drop (offset + q)).take (offset + q)
          = dst.take offset ++ r.data.take q := by
        apply List.take_left'
        simp only [List.length_append, List.length_take]; omega
      have hsplit : n - offset = q + (n - (offset + q)) := by omega
      have hd : (r.data.drop q).drop (n - (offset + q)) = r.data.drop (n - offset) := by
        rw [List.drop_drop]; congr 1; omega
      have ht : r.data.take q ++ (r.data.drop q).take (n - (offset + q))
          = r.data.take (n - offset) := by
        rw [hsplit, List.take_add]
      simp only [htake, hd]
      rw [List.append_assoc, ht]

/-- When the source runs out before the window is full, the read loop places the bytes that were
left in the window and fails with the error the source ends with, end of stream being reported
as `io.ErrUnexpectedEOF`. -/
theorem chunkedFormReader.appendLoop_short (fuel : Nat) :
    ∀ (r : Reader) (dst : List Byte) (n offset : Nat), dst.length = n → offset < n →
      r.data.length < n - offset → r.data.length < fuel →
      ∃ sched1, chunkedFormReader.appendLoop fuel r dst n offset =
        some ⟨dst.take offset ++ r.data ++ dst.drop (offset + r.data.length),
          offset + r.data.length, some (readFailure (some r.fin) 0), ⟨[], sched1, r.fin⟩⟩ := by
  induction fuel with
  | zero => intro r dst n offset _ _ _ h3; omega
  | succ fuel ih =>
    intro r dst n offset hlen hoff hdata hfuel
    have hk : 0 < dst.length - offset := by omega
    unfold chunkedFormReader.appendLoop
    by_cases hnil : r.data = []
    · rw [Reader.Read_of_nil r _ hk hnil]
      refine ⟨r.sched, ?_⟩
      obtain ⟨d, sc, fn⟩ := r
      simp only at hnil
      subst hnil
      simp
    · rw [Reader.Read_of_data r _ hk hnil]
      set q := r.quota (dst.length - offset) with hqdef
      have hq1 : 0 < q := r.quota_pos hk
      have hpos : 0 < r.data.length := List.length_pos.mpr hnil
      have hgot : (r.data.take q).length = min q r.data.length := List.length_take _ _
      have hg0 : (r.data.take q).length ≠ 0 := by omega
      have hn : ¬ n = offset + (r.data.take q).length := by omega
      simp only [hg0, if_false, hn]
      set g := (r.data.take q).length with hgdef
      have hlen1 : (dst.take offset ++ r.data.take q ++ dst.drop (offset + g)).length = n := by
        simp only [List.length_append, List.length_take, List.length_drop]; omega
      obtain ⟨s1, hs1⟩ := ih ⟨r.data.drop q, r.sched.tail, r.fin⟩
        (dst.take offset ++ r.data.take q ++ dst.drop (offset + g)) n (offset + g) hlen1
        (by omega) (by simp only [List.length_drop]; omega)
        (by simp only [List.length_drop]; omega)
      refine ⟨s1, ?_⟩
      rw [hs1]
      have hAB : (dst.take offset ++ r.data.take q).length = offset + g := by
        simp only [List.length_append, List.length_take]; omega
      have htake : (dst.take offset ++ r.data.take q ++ dst.drop (offset + g)).take (offset + g)
          = dst.take offset ++ r.data.take q := List.take_left' hAB
      have hdrop : (dst.take offset ++ r.data.take q ++ dst.drop (offset + g)).drop
          (offset + g + (r.data.drop q).length) = dst.drop (offset + r.data.length) := by
        rw [List.drop_append_eq_append_drop, hAB]
        have h1 : (dst.take offset ++ r.data.take q).drop (offset + g + (r.data.drop q).length)
            = [] := by
          apply List.drop_eq_nil_of_le; omega
        rw [h1, List.nil_append, List.drop_drop]
        congr 1
        simp only [List.length_drop]; omega
      have hoff1 : offset + g + (r.data.drop q).length = offset + r.data.length := by
        simp only [List.length_drop]; omega
      simp only [htake, hdrop]
      rw [hoff1]
      simp only [List.append_assoc, List.take_append_drop]

/-- The method reads exactly `n` bytes into a window of length `n` when the source holds them. -/
theorem chunkedFormReader.appendBodyFixedSize_full (r : Reader) (dst : List Byte) (n : Nat)
    (hlen : dst.length = n) (hn : 0 < n) (hdata : n ≤ r.data.length) :
    ∃ sched1, chunkedFormReader.appendBodyFixedSize r dst n =
      some ⟨r.data.take n, n, none, ⟨r.data.drop n, sched1, r.fin⟩⟩ := by
  obtain ⟨s1, hs1⟩ := chunkedFormReader.appendLoop_full (dst.length + 1) r dst n 0 hlen hn
    (by omega) (by omega)
  refine ⟨s1, ?_⟩
  unfold chunkedFormReader.appendBodyFixedSize
  rw [if_neg (by omega), hs1]
  simp

/-- The method fails when the source holds fewer than `n` bytes. -/
theorem chunkedFormReader.appendBodyFixedSize_short (r : Reader) (dst : List Byte) (n : Nat)
    (hlen : dst.length = n) (hdata : r.data.length < n) :
    ∃ sched1, chunkedFormReader.appendBodyFixedSize r dst n =
      some ⟨r.data ++ dst.drop r.data.length, r.data.length,
        some (readFailure (some r.fin) 0), ⟨[], sched1, r.fin⟩⟩ := by
  obtain ⟨s1, hs1⟩ := chunkedFormReader.appendLoop_short (dst.length + 1) r dst n 0 hlen
    (by omega) (by omega) (by omega)
  refine ⟨s1, ?_⟩
  unfold chunkedFormReader.appendBodyFixedSize
  rw [if_neg (by omega), hs1]
  simp

theorem appendBodyFixedSize_pkg_full (data : List Byte) (sched : List Nat) (fin : Error)
    (dst : List Byte) (n : Nat) (hn : 0 < n) (hdata : n ≤ data.length) :
    ∃ sched1, appendBodyFixedSize ⟨data, sched, fin⟩ dst n =
      some (dst ++ data.take n, none, ⟨data.drop n, sched1, fin⟩) := by
  obtain ⟨s1, hs1⟩ := chunkedFormReader.appendBodyFixedSize_full ⟨data, sched, fin⟩
    (List.replicate n 0) n (by simp) hn hdata
  refine ⟨s1, ?_⟩
  unfold appendBodyFixedSize
  rw [hs1]

theorem appendBodyFixedSize_pkg_short (data : List Byte) (sched : List Nat) (fin : Error)
    (dst : List Byte) (n : Nat) (hdata : data.length < n) :
    ∃ sched1, appendBodyFixedSize ⟨data, sched, fin⟩ dst n =
      some (dst ++ data, some (readFailure (some fin) 0), ⟨[], sched1, fin⟩) := by
  obtain ⟨s1, hs1⟩ := chunkedFormReader.appendBodyFixedSize_short ⟨data, sched, fin⟩
    (List.replicate n 0) n (by simp) hdata
  refine ⟨s1, ?_⟩
  unfold appendBodyFixedSize
  rw [hs1]
  simp

/-- One well-formed chunk within the ceiling: an iteration of the loop appends its payload and
moves on to the bytes after the chunk. -/
theorem readBodyChunked2.loop_chunk (c : Chunk) (hc : c.wellFormed) (fuel : Nat)
    (rest : List Byte) (sched : List Nat) (fin : Error) (m : Int) (dst : List Byte)
    (hlim : m ≤ 0 ∨ (dst.length : Int) + c.payload.length ≤ m) :
    ∃ sched1, readBodyChunked2.loop (fuel + 1) ⟨c.encode ++ rest, sched, fin⟩ m dst =
      readBodyChunked2.loop fuel ⟨rest, sched1, fin⟩ m (dst ++ c.payload) := by
  obtain ⟨hds, hext, hval, hpos⟩ := hc
  have hparse := parseChunkSize_sizeLine c.digits c.ext hds hext
    (c.payload ++ strCRLF ++ rest) sched fin
  obtain ⟨s1, hs1⟩ := appendBodyFixedSize_pkg_full (c.payload ++ strCRLF ++ rest) sched fin dst
    (c.payload.length + strCRLFLen) (by omega)
    (by simp only [List.length_append]; unfold strCRLFLen; omega)
  refine ⟨s1, ?_⟩
  have htake : (c.payload ++ strCRLF ++ rest).take (c.payload.length + strCRLFLen)
      = c.payload ++ strCRLF := by
    apply List.take_left'
    simp [strCRLFLen]
  have hdrop : (c.payload ++ strCRLF ++ rest).drop (c.payload.length + strCRLFLen) = rest := by
    apply List.drop_left'
    simp [strCRLFLen]
  rw [htake, hdrop] at hs1
  have henc : c.encode ++ rest = sizeLine c.digits c.ext ++ (c.payload ++ strCRLF ++ rest) := by
    simp [Chunk.encode, List.append_assoc]
  have hne : ¬ c.payload.length = 0 := by omega
  have hcheck : ¬ (m > 0 ∧ (dst.length : Int) + (c.payload.length : Int) > m) := by
    rintro ⟨h1, h2⟩
    rcases hlim with h | h <;> omega
  have hlen2 : (dst ++ (c.payload ++ strCRLF)).length - strCRLFLen
      = (dst ++ c.payload).length := by
    simp only [strCRLFLen, strCRLF, List.length_append, List.length_cons, List.length_nil]
    omega
  have hd2 : (dst ++ (c.payload ++ strCRLF)).drop ((dst ++ (c.payload ++ strCRLF)).length
      - strCRLFLen) = strCRLF := by
    rw [hlen2, ← List.append_assoc]
    exact List.drop_left' rfl
  have ht2 : (dst ++ (c.payload ++ strCRLF)).take ((dst ++ (c.payload ++ strCRLF)).length
      - strCRLFLen) = dst ++ c.payload := by
    rw [hlen2, ← List.append_assoc]
    exact List.take_left' rfl
  rw [henc, readBodyChunked2.loop, hparse]
  simp only [hval, hne, if_false, hcheck, hs1, hd2, ht2, ne_eq, not_true_eq_false]

theorem length_le_encodeChunks (cs : List Chunk) : cs.length ≤ (encodeChunks cs).length := by
  induction cs with
  | nil => simp [encodeChunks]
  | cons c cs ih =>
    simp only [encodeChunks, Chunk.encode, sizeLine, strCRLF, List.length_append,
      List.length_cons, List.length_nil]
    omega

/-- A run of well-formed chunks that stays within the ceiling: the loop appends their payloads
in order and moves on to the bytes after them. -/
theorem readBodyChunked2.loop_chunks (cs : List Chunk) (hcs : ∀ c ∈ cs, c.wellFormed) :
    ∀ (fuel : Nat) (rest : List Byte) (sched : List Nat) (fin : Error) (m : Int)
      (dst : List Byte), (m ≤ 0 ∨ (dst.length : Int) + (payloads cs).length ≤ m) →
      ∃ sched1, readBodyChunked2.loop (fuel + cs.length) ⟨encodeChunks cs ++ rest, sched, fin⟩ m dst
        = readBodyChunked2.loop fuel ⟨rest, sched1, fin⟩ m (dst ++ payloads cs) := by
  induction cs with
  | nil =>
    intro fuel rest sched fin m dst _
    exact ⟨sched, by simp [encodeChunks, payloads]⟩
  | cons c cs ih =>
    intro fuel rest sched fin m dst hlim
    have hc : c.wellFormed := hcs c (by simp)
    have hcs1 : ∀ x ∈ cs, x.wellFormed := fun x hx => hcs x (by simp [hx])
    simp only [payloads, List.length_append, Nat.cast_add] at hlim
    obtain ⟨s1, hs1⟩ := readBodyChunked2.loop_chunk c hc (fuel + cs.length)
      (encodeChunks cs ++ rest) sched fin m dst (by omega)
    obtain ⟨s2, hs2⟩ := ih hcs1 fuel rest s1 fin m (dst ++ c.payload)
      (by simp only [List.length_append, Nat.cast_add]; omega)
    refine ⟨s2, ?_⟩
    have hfuel : fuel + (c :: cs).length = fuel + cs.length + 1 := by simp; omega
    rw [hfuel]
    simp only [encodeChunks, payloads, List.append_assoc] at hs1 hs2 ⊢
    rw [hs1, hs2]

/-- The size line of the terminal chunk ends the loop successfully. -/
theorem readBodyChunked2.loop_terminal (ds ext : List Byte) (hds : okDigits ds)
    (hext : okExt ext) (hz : hexValue ds = 0) (fuel : Nat) (rest : List Byte)
    (sched : List Nat) (fin : Error) (m : Int) (dst : List Byte) :
    readBodyChunked2.loop (fuel + 1) ⟨sizeLine ds ext ++ rest, sched, fin⟩ m dst
      = some (dst, none, ⟨rest, sched, fin⟩) := by
  rw [readBodyChunked2.loop, parseChunkSize_sizeLine ds ext hds hext]
  simp [hz]

/-- A size line whose declared size would exceed a positive ceiling ends the loop with
`ErrBodyTooLarge`, the cursor standing right after the line. -/
theorem readBodyChunked2.loop_tooLarge (ds ext : List Byte) (hds : okDigits ds)
    (hext : okExt ext) (fuel : Nat) (rest : List Byte) (sched : List Nat) (fin : Error)
    (m : Int) (dst : List Byte) (hm : 0 < m) (hprev : (dst.length : Int) ≤ m)
    (hover : m < (dst.length : Int) + hexValue ds) :
    readBodyChunked2.loop (fuel + 1) ⟨sizeLine ds ext ++ rest, sched, fin⟩ m dst
      = some (dst, some .ErrBodyTooLarge, ⟨rest, sched, fin⟩) := by
  rw [readBodyChunked2.loop, parseChunkSize_sizeLine ds ext hds hext]
  have hne : ¬ hexValue ds = 0 := by
    intro h
    rw [h] at hover
    simp only [Nat.cast_zero, add_zero] at hover
    omega
  have hc : m > 0 ∧ (dst.length : Int) + (hexValue ds : Int) > m := ⟨hm, hover⟩
  simp only [hne, if_false, hc, and_self, if_true]

theorem clamp_eq (d m : Int) : (if m > d then d else m) = clampedCeiling d m := by
  unfold clampedCeiling
  split_ifs with h
  · exact (min_eq_right (le_of_lt h)).symm
  · exact (min_eq_left (not_lt.mp h)).symm

theorem bigChunk_hexValue : hexValue bigChunk.digits = 16777217 := by
  show hexValue [49, 48, 48, 48, 48, 48, 49] = 16777217
  simp [hexValue, hex2int]

theorem bigChunk_length : bigChunk.payload.length = 16777217 := by
  show (List.replicate 16777217 97).length = 16777217
  rw [List.length_replicate]

theorem bigChunk_wellFormed : bigChunk.wellFormed := by
  refine ⟨by decide, by decide, ?_, ?_⟩
  · rw [bigChunk_hexValue, bigChunk_length]
  · rw [bigChunk_length]; omega

theorem payloads_bigChunk_length : (payloads [bigChunk]).length = 16777217 := by
  show (bigChunk.payload ++ []).length = 16777217
  rw [List.append_nil, bigChunk_length]

/-- The branch without a multipart boundary returns what its loop returns, run under the clamped
ceiling. -/
theorem readBodyChunked2_of_loop (d : Int) (decode : FormDecoder) (req : Request) (r : Reader)
    (maxBodySize : Int) (hb : req.headerBoundary = []) (x : List Byte × Option Error × Reader)
    (hx : readBodyChunked2.loop (r.data.length + 1) r (clampedCeiling d maxBodySize) [] = some x) :
    readBodyChunked2 d decode req r maxBodySize [] = some (.ret ⟨req, x.1, x.2.1, x.2.2⟩) := by
  unfold readBodyChunked2
  rw [if_neg (by simp), if_pos hb]
  simp only [clamp_eq, hx]

theorem clampedCeiling_sample : clampedCeiling 16777216 33554432 = 16777216 := by
  unfold clampedCeiling
  norm_num

theorem bigChunk_rejected (rest : List Byte) :
    readBodyChunked2 16777216 idleDecoder plainRequest
        ⟨sizeLine bigChunk.digits bigChunk.ext ++ rest, [], .EOF⟩ 33554432 []
      = some (.ret ⟨plainRequest, [], some .ErrBodyTooLarge, ⟨rest, [], .EOF⟩⟩) := by
  have hl := readBodyChunked2.loop_tooLarge bigChunk.digits bigChunk.ext
    bigChunk_wellFormed.1 bigChunk_wellFormed.2.1
    (sizeLine bigChunk.digits bigChunk.ext ++ rest).length rest [] .EOF
    (clampedCeiling 16777216 33554432) []
    (by rw [clampedCeiling_sample]; norm_num) (by rw [clampedCeiling_sample]; norm_num)
    (by rw [clampedCeiling_sample, bigChunk_hexValue]; norm_num)
  rw [readBodyChunked2_of_loop 16777216 idleDecoder plainRequest _ 33554432 rfl _ hl]

/-- C1 (as stated, refuted): with `defaultMaxInMemoryFileSize` at 16 MiB and `maxBodySize` at
32 MiB, a well-formed body of one chunk of 16 MiB + 1 bytes has a total payload within
`maxBodySize`, yet `readBodyChunked2` returns `ErrBodyTooLarge` and an empty buffer. -/
theorem readBodyChunked2_maxBodySize_counterexample :
    (∀ c ∈ [bigChunk], c.wellFormed) ∧
    (okDigits [48] ∧ okExt [] ∧ hexValue [48] = 0) ∧
    ((payloads [bigChunk]).length : Int) ≤ 33554432 ∧
    readBodyChunked2 16777216 idleDecoder plainRequest
        ⟨encodeChunks [bigChunk] ++ sizeLine [48] [] ++ [], [], .EOF⟩ 33554432 []
      = some (.ret ⟨plainRequest, [], some .ErrBodyTooLarge,
          ⟨bigChunk.payload ++ strCRLF ++ sizeLine [48] [], [], .EOF⟩⟩) := by
  refine ⟨?_, by decide, ?_, ?_⟩
  · intro c hc
    rw [List.mem_singleton] at hc
    subst hc
    exact bigChunk_wellFormed
  · rw [payloads_bigChunk_length]; norm_num
  · have hdata : encodeChunks [bigChunk] ++ sizeLine [48] [] ++ []
        = sizeLine bigChunk.digits bigChunk.ext
          ++ (bigChunk.payload ++ strCRLF ++ sizeLine [48] []) := by
      simp only [encodeChunks, Chunk.encode, List.append_assoc, List.append_nil]
    rw [hdata, bigChunk_rejected]

/-- C1 (amended): for a well-formed chunked body on a request without a multipart boundary,
read with an empty `dst`, whose total payload is at most the clamped ceiling
`min(maxBodySize, defaultMaxInMemoryFileSize)` (or whose clamped ceiling is not positive, meaning
unlimited), `readBodyChunked2` returns a nil error and exactly the in-order concatenation of the
chunk payloads, the cursor standing right after the terminal chunk's size line. -/
theorem readBodyChunked2_returns_payloads (d maxBodySize : Int) (decode : FormDecoder)
    (req : Request) (cs : List Chunk) (zdigits zext tail : List Byte) (sched : List Nat)
    (fin : Error) (hb : req.headerBoundary = []) (hcs : ∀ c ∈ cs, c.wellFormed)
    (hz : okDigits zdigits ∧ okExt zext ∧ hexValue zdigits = 0)
    (hlim : clampedCeiling d maxBodySize ≤ 0
      ∨ ((payloads cs).length : Int) ≤ clampedCeiling d maxBodySize) :
    ∃ sched1, readBodyChunked2 d decode req
        ⟨encodeChunks cs ++ sizeLine zdigits zext ++ tail, sched, fin⟩ maxBodySize []
      = some (.ret ⟨req, payloads cs, none, ⟨tail, sched1, fin⟩⟩) := by
  have hlen := length_le_encodeChunks cs
  obtain ⟨k, hk⟩ : ∃ k, (encodeChunks cs ++ sizeLine zdigits zext ++ tail).length + 1
      = (k + 1) + cs.length := by
    refine ⟨(encodeChunks cs ++ sizeLine zdigits zext ++ tail).length - cs.length, ?_⟩
    simp only [List.length_append]; omega
  obtain ⟨s1, hs1⟩ := readBodyChunked2.loop_chunks cs hcs (k + 1) (sizeLine zdigits zext ++ tail)
    sched fin (clampedCeiling d maxBodySize) [] (by simpa using hlim)
  refine ⟨s1, ?_⟩
  have hl := readBodyChunked2.loop_terminal zdigits zext hz.1 hz.2.1 hz.2.2 k tail s1 fin
    (clampedCeiling d maxBodySize) ([] ++ payloads cs)
  rw [readBodyChunked2_of_loop d decode req _ maxBodySize hb
    ([] ++ payloads cs, none, ⟨tail, s1, fin⟩)]
  · simp
  · show readBodyChunked2.loop ((encodeChunks cs ++ sizeLine zdigits zext ++ tail).length + 1)
      _ _ _ = _
    rw [hk, List.append_assoc, hs1, hl]

/-- Witness of C1 (amended): the body `3 CRLF abc CRLF 3 CRLF abc CRLF 0 CRLF`, delivered one
byte per read at first, under a ceiling of 100. -/
theorem readBodyChunked2_returns_payloads_witness :
    ∃ sched1, readBodyChunked2 16777216 idleDecoder plainRequest
        ⟨encodeChunks [abcChunk, abcChunk] ++ sizeLine [48] [] ++ [88], [0, 0], .EOF⟩ 100 []
      = some (.ret ⟨plainRequest, payloads [abcChunk, abcChunk], none, ⟨[88], sched1, .EOF⟩⟩) :=
  readBodyChunked2_returns_payloads 16777216 100 idleDecoder plainRequest [abcChunk, abcChunk]
    [48] [] [88] [0, 0] .EOF rfl (by decide) (by decide)
    (by right; unfold clampedCeiling; decide)

/-- C2 (as stated, refuted): with `defaultMaxInMemoryFileSize` at 16 MiB and `maxBodySize` at
32 MiB, a chunk of 16 MiB + 1 bytes followed by a size line declaring 16 MiB: the second chunk
is the one that would exceed `maxBodySize`, but `readBodyChunked2` fails at the first size line,
returns an empty buffer rather than the payload of the first chunk, and leaves the cursor after
the first size line. -/
theorem readBodyChunked2_tooLarge_counterexample :
    (∀ c ∈ [bigChunk], c.wellFormed) ∧ okDigits [49, 48, 48, 48, 48, 48, 48] ∧
    (0 : Int) < 33554432 ∧ ((payloads [bigChunk]).length : Int) ≤ 33554432 ∧
    (33554432 : Int) < ((payloads [bigChunk]).length : Int)
      + hexValue [49, 48, 48, 48, 48, 48, 48] ∧
    readBodyChunked2 16777216 idleDecoder plainRequest
        ⟨encodeChunks [bigChunk] ++ sizeLine [49, 48, 48, 48, 48, 48, 48] [] ++ [], [], .EOF⟩
        33554432 []
      = some (.ret ⟨plainRequest, [], some .ErrBodyTooLarge,
          ⟨bigChunk.payload ++ strCRLF ++ sizeLine [49, 48, 48, 48, 48, 48, 48] [], [], .EOF⟩⟩) ∧
    ([] : List Byte) ≠ payloads [bigChunk] := by
  refine ⟨?_, by decide, by norm_num, ?_, ?_, ?_, ?_⟩
  · intro c hc
    rw [List.mem_singleton] at hc
    subst hc
    exact bigChunk_wellFormed
  · rw [payloads_bigChunk_length]; norm_num
  · rw [payloads_bigChunk_length]
    have h : hexValue [49, 48, 48, 48, 48, 48, 48] = 16777216 := by simp [hexValue, hex2int]
    rw [h]; norm_num
  · have hdata : encodeChunks [bigChunk] ++ sizeLine [49, 48, 48, 48, 48, 48, 48] [] ++ []
        = sizeLine bigChunk.digits bigChunk.ext
          ++ (bigChunk.payload ++ strCRLF ++ sizeLine [49, 48, 48, 48, 48, 48, 48] []) := by
      simp only [encodeChunks, Chunk.encode, List.append_assoc, List.append_nil]
    rw [hdata, bigChunk_rejected]
  · intro h
    have hl := congrArg List.length h
    rw [payloads_bigChunk_length] at hl
    simp at hl

/-- C2 (amended): on a request without a multipart boundary, read with an empty `dst`, when the
clamped ceiling `min(maxBodySize, defaultMaxInMemoryFileSize)` is positive, the well-formed
chunks read so far are within it and the next size line declares a size that would exceed it,
`readBodyChunked2` returns `ErrBodyTooLarge` together with exactly the payloads of the earlier
chunks, and the cursor stands right after that size line: no byte after it has been read. -/
theorem readBodyChunked2_rejects_before_reading (d maxBodySize : Int) (decode : FormDecoder)
    (req : Request) (cs : List Chunk) (ds ext rest : List Byte) (sched : List Nat) (fin : Error)
    (hb : req.headerBoundary = []) (hcs : ∀ c ∈ cs, c.wellFormed) (hds : okDigits ds)
    (hext : okExt ext) (hpos : 0 < clampedCeiling d maxBodySize)
    (hprev : ((payloads cs).length : Int) ≤ clampedCeiling d maxBodySize)
    (hover : clampedCeiling d maxBodySize < ((payloads cs).length : Int) + hexValue ds) :
    ∃ sched1, readBodyChunked2 d decode req
        ⟨encodeChunks cs ++ sizeLine ds ext ++ rest, sched, fin⟩ maxBodySize []
      = some (.ret ⟨req, payloads cs, some .ErrBodyTooLarge, ⟨rest, sched1, fin⟩⟩) := by
  have hlen := length_le_encodeChunks cs
  obtain ⟨k, hk⟩ : ∃ k, (encodeChunks cs ++ sizeLine ds ext ++ rest).length + 1
      = (k + 1) + cs.length := by
    refine ⟨(encodeChunks cs ++ sizeLine ds ext ++ rest).length - cs.length, ?_⟩
    simp only [List.length_append]; omega
  obtain ⟨s1, hs1⟩ := readBodyChunked2.loop_chunks cs hcs (k + 1) (sizeLine ds ext ++ rest)
    sched fin (clampedCeiling d maxBodySize) [] (by right; simpa using hprev)
  refine ⟨s1, ?_⟩
  have hl := readBodyChunked2.loop_tooLarge ds ext hds hext k rest s1 fin
    (clampedCeiling d maxBodySize) ([] ++ payloads cs) hpos (by simpa using hprev)
    (by simpa using hover)
  rw [readBodyChunked2_of_loop d decode req _ maxBodySize hb
    ([] ++ payloads cs, some .ErrBodyTooLarge, ⟨rest, s1, fin⟩)]
  · simp
  · show readBodyChunked2.loop ((encodeChunks cs ++ sizeLine ds ext ++ rest).length + 1) _ _ _ = _
    rw [hk, List.append_assoc, hs1, hl]

/-- Witness of C2 (amended): ceiling 5, the chunk `abc`, then a size line declaring 3 bytes. -/
theorem readBodyChunked2_rejects_before_reading_witness :
    ∃ sched1, readBodyChunked2 16777216 idleDecoder plainRequest
        ⟨encodeChunks [abcChunk] ++ sizeLine [51] [59, 120] ++ [97, 98, 99, 13, 10], [1], .EOF⟩
        5 []
      = some (.ret ⟨plainRequest, payloads [abcChunk], some .ErrBodyTooLarge,
          ⟨[97, 98, 99, 13, 10], sched1, .EOF⟩⟩) :=
  readBodyChunked2_rejects_before_reading 16777216 5 idleDecoder plainRequest [abcChunk]
    [51] [59, 120] [97, 98, 99, 13, 10] [1] .EOF rfl (by decide) (by decide) (by decide)
    (by unfold clampedCeiling; decide) (by unfold clampedCeiling; decide)
    (by unfold clampedCeiling; decide)

/-- C3 (the code at the failing input): the body `3 CRLF abc CRLF 0 CRLF` without limit.
`readBodyChunked2` returns `abc`.  Read through the adapter with one-byte caller buffers, the
first call delivers `a` and keeps `bc` staged; the second call copies `b` alone into its buffer
but returns the count 2, more than the buffer holds, and forgets `c`; the third call meets the
zero-size chunk.  The bytes delivered are `ab`. -/
theorem chunkedFormReader_Read_short_buffer_drops_bytes :
    bodyOf (readBodyChunked2 16777216 idleDecoder plainRequest ⟨sampleBody, [], .EOF⟩ 0 [])
      = some (.ret ([97, 98, 99], none))
    ∧ (chunkedFormReader.new ⟨sampleBody, [], .EOF⟩ 0).readAll [[0], [0], [0]]
      = some (.ret ⟨[97, 98], [1, 2, 0], true, none⟩) := by
  constructor
  · decide
  · decide!

/-- The method always returns when the window has length `n`, and leaves the window at that
length. -/
theorem chunkedFormReader.appendBodyFixedSize_total (r : Reader) (dst : List Byte) (n : Nat)
    (hlen : dst.length = n) :
    ∃ f, chunkedFormReader.appendBodyFixedSize r dst n = some f ∧ f.dst.length = n := by
  by_cases hn : n = 0
  · refine ⟨⟨dst, 0, none, r⟩, ?_, hlen⟩
    simp [chunkedFormReader.appendBodyFixedSize, hn]
  · by_cases hd : n ≤ r.data.length
    · obtain ⟨s1, hs1⟩ := chunkedFormReader.appendBodyFixedSize_full r dst n hlen (by omega) hd
      exact ⟨_, hs1, by simp only [List.length_take]; omega⟩
    · obtain ⟨s1, hs1⟩ := chunkedFormReader.appendBodyFixedSize_short r dst n hlen (by omega)
      exact ⟨_, hs1, by simp only [List.length_append, List.length_drop]; omega⟩

/-- Staging when the source holds fewer bytes than the page asks for. -/
theorem chunkedFormReader.stage_short (a : chunkedFormReader) (n c : Nat) (p : List Byte)
    (hbuf : c ≤ a.buf.length) (hdata : a.r.data.length < c) :
    ∃ s, a.stage n c p = some (.ret ⟨p, 0, some (readFailure (some a.r.fin) 0), s⟩)
      ∧ s.limitSize = a.limitSize ∧ s.rs = a.rs ∧ s.chunkSize = a.chunkSize ∧ s.rd = a.rd
      ∧ s.wt = n ∧ s.buf.length = a.buf.length ∧ s.r.data = [] := by
  obtain ⟨s1, hs1⟩ := chunkedFormReader.appendBodyFixedSize_short a.r (a.buf.take c) c
    (by simp only [List.length_take]; omega) hdata
  unfold chunkedFormReader.stage
  simp only [hs1, if_neg (show ¬ c > a.buf.length by omega)]
  refine ⟨_, rfl, rfl, rfl, rfl, rfl, rfl, ?_, rfl⟩
  simp only [List.length_append, List.length_drop, List.length_take]
  omega

/-- Staging when the source holds the bytes that the page asks for. -/
theorem chunkedFormReader.stage_full (a : chunkedFormReader) (n c : Nat) (p : List Byte)
    (hbuf : c ≤ a.buf.length) (hc : 0 < c) (hn : n ≤ c) (hdata : c ≤ a.r.data.length) :
    ∃ sched1, a.stage n c p =
      (if a.chunkSize = 0 ∧ (a.r.data.take c).drop n ≠ strCRLF then
        some (.ret ⟨p, 0, some (.ErrBrokenChunk .noCrlfAtEnd),
          { a with wt := n, r := ⟨a.r.data.drop c, sched1, a.r.fin⟩,
                   buf := a.r.data.take c ++ a.buf.drop c }⟩)
      else
        some (.ret ⟨(copyBytes p (a.r.data.take n)).1, (copyBytes p (a.r.data.take n)).2, none,
          { a with wt := n, r := ⟨a.r.data.drop c, sched1, a.r.fin⟩,
                   buf := a.r.data.take c ++ a.buf.drop c,
                   rd := (copyBytes p (a.r.data.take n)).2 }⟩)) := by
  obtain ⟨s1, hs1⟩ := chunkedFormReader.appendBodyFixedSize_full a.r (a.buf.take c) c
    (by simp only [List.length_take]; omega) hc hdata
  refine ⟨s1, ?_⟩
  have hlen : (a.r.data.take c).length = c := by simp only [List.length_take]; omega
  have h1 : (a.r.data.take c ++ a.buf.drop c).take c = a.r.data.take c := List.take_left' hlen
  have h2 : (a.r.data.take c ++ a.buf.drop c).take n = a.r.data.take n := by
    rw [List.take_append_of_le_length (by omega), List.take_take]
    congr 1
    omega
  unfold chunkedFormReader.stage
  simp only [hs1, if_neg (show ¬ c > a.buf.length by omega), h1, h2]

/-- What splitting a page off a chunk with `chunkSize > 0` bytes left does. -/
theorem chunkedFormReader.cut_spec (a : chunkedFormReader) (chunkSize : Nat)
    (h : a.chunkSize = chunkSize) (hpos : 0 < chunkSize) :
    (a.cut chunkSize).1.limitSize = a.limitSize ∧ (a.cut chunkSize).1.buf = a.buf
      ∧ (a.cut chunkSize).1.r = a.r ∧ (a.cut chunkSize).1.rd = a.rd
      ∧ (a.cut chunkSize).1.rs = a.rs + (a.cut chunkSize).2.1
      ∧ (a.cut chunkSize).1.chunkSize + (a.cut chunkSize).2.1 = chunkSize
      ∧ (a.cut chunkSize).2.1 = (if chunkSize > 4096 then 4096 else chunkSize)
      ∧ (a.cut chunkSize).2.2
          = (if chunkSize > 4096 then 4096 else chunkSize + 2)
      ∧ ((a.cut chunkSize).1.chunkSize = 0 ↔ chunkSize ≤ 4096) := by
  unfold chunkedFormReader.cut
  by_cases hc : chunkSize > 4096
  · simp only [hc, if_true]
    simp only [true_and]
    omega
  · simp only [hc, if_false]
    simp only [true_and, zero_add, strCRLFLen, strCRLF, List.length_cons, List.length_nil,
      true_iff]
    omega

theorem copyBytes_count (p src : List Byte) : (copyBytes p src).2 = min p.length src.length :=
  rfl

/-- Paging keeps the invariant: it returns, and the bytes it hands out are counted in `rs`. -/
theorem chunkedFormReader.page_inv (limit : Int) (acc : Nat) (a : chunkedFormReader)
    (chunkSize : Nat) (p : List Byte) (h : a.chunkSize = chunkSize) (hpos : 0 < chunkSize)
    (hbuf : a.buf.length = 4098) (hlim : a.limitSize = limit)
    (hsum : (a.rs : Int) + chunkSize ≤ limit) (hacc : acc ≤ a.rs) :
    ∃ res, a.page chunkSize p = some (.ret res) ∧ chunkedFormReader.inv limit (acc + res.n) res.s := by
  obtain ⟨c1, c2, c3, c4, c5, c6, c7, c8, c9⟩ := chunkedFormReader.cut_spec a chunkSize h hpos
  unfold chunkedFormReader.page
  generalize (a.cut chunkSize).1 = a1 at *
  generalize (a.cut chunkSize).2.1 = n at *
  generalize (a.cut chunkSize).2.2 = c at *
  have hn : n ≤ 4096 := by rw [c7]; split_ifs <;> omega
  have hc : c ≤ 4098 := by rw [c8]; split_ifs <;> omega
  have hnc : n ≤ c := by rw [c8]; split_ifs <;> omega
  have hc0 : 0 < c := by rw [c8]; split_ifs <;> omega
  by_cases hd : a1.r.data.length < c
  · obtain ⟨s, hs, s1, s2, s3, s4, s5, s6, _⟩ := chunkedFormReader.stage_short a1 n c p
      (by rw [c2, hbuf]; exact hc) hd
    refine ⟨_, hs, ?_⟩
    simp only [chunkedFormReader.inv]
    refine ⟨by rw [s6, c2, hbuf], by rw [s1, c1, hlim], ?_, ?_, by omega⟩
    · rw [s2, s3, c5]; push_cast; omega
    · rw [s5, s4, s2, c5]; omega
  · obtain ⟨sched1, hs⟩ := chunkedFormReader.stage_full a1 n c p
      (by rw [c2, hbuf]; exact hc) hc0 hnc (by omega)
    rw [hs]
    split_ifs with hbr
    · refine ⟨_, rfl, ?_⟩
      simp only [chunkedFormReader.inv]
      refine ⟨?_, by rw [c1, hlim], ?_, ?_, hn⟩
      · simp only [List.length_append, List.length_take, List.length_drop, c2, hbuf]; omega
      · rw [c5]; push_cast; omega
      · rw [c5, c4]; omega
    · refine ⟨_, rfl, ?_⟩
      have hcnt := copyBytes_count p (a1.r.data.take n)
      simp only [List.length_take] at hcnt
      simp only [chunkedFormReader.inv]
      refine ⟨?_, by rw [c1, hlim], ?_, ?_, hn⟩
      · simp only [List.length_append, List.length_take, List.length_drop, c2, hbuf]; omega
      · rw [c5]; push_cast; omega
      · rw [c5, hcnt]; omega

/-- A `Read` call keeps the invariant: it returns, and the count it returns is covered. -/
theorem chunkedFormReader.Read_inv (limit : Int) (hpos : 0 < limit) (acc : Nat)
    (a : chunkedFormReader) (p : List Byte) (h : chunkedFormReader.inv limit acc a) :
    ∃ res, a.Read p = some (.ret res) ∧ chunkedFormReader.inv limit (acc + res.n) res.s := by
  obtain ⟨hbuf, hlim, hsum, hacc, hwt⟩ := h
  unfold chunkedFormReader.Read
  by_cases hw : a.wt > a.rd
  · rw [if_pos hw, if_neg (by omega)]
    refine ⟨_, rfl, hbuf, hlim, hsum, ?_, ?_⟩
    · show acc + (a.wt - a.rd) + (0 - 0) ≤ a.rs
      omega
    · show 0 ≤ 4096
      omega
  · rw [if_neg hw]
    by_cases hcs : a.chunkSize = 0
    · rw [if_pos hcs]
      rcases hparse : parseChunkSize a.r with ⟨_ | chunkSize, r1⟩
      · exact ⟨_, rfl, hbuf, hlim, hsum, by show acc + 0 + (a.wt - a.rd) ≤ a.rs; omega, hwt⟩
      · simp only
        by_cases hz : chunkSize = 0
        · rw [if_pos hz]
          exact ⟨_, rfl, hbuf, hlim, hsum, by show acc + 0 + (a.wt - a.rd) ≤ a.rs; omega, hwt⟩
        · rw [if_neg hz]
          by_cases hbig : a.limitSize > 0 ∧ (a.rs : Int) + chunkSize > a.limitSize
          · rw [if_pos hbig]
            exact ⟨_, rfl, hbuf, hlim, hsum, by show acc + 0 + (a.wt - a.rd) ≤ a.rs; omega, hwt⟩
          · rw [if_neg hbig]
            apply chunkedFormReader.page_inv limit acc { a with r := r1, chunkSize := chunkSize }
              chunkSize p rfl (by omega) hbuf hlim
            · rw [hlim] at hbig
              show (a.rs : Int) + chunkSize ≤ limit
              by_contra hcon
              exact hbig ⟨hpos, by omega⟩
            · show acc ≤ a.rs
              omega
    · rw [if_neg hcs]
      exact chunkedFormReader.page_inv limit acc a a.chunkSize p rfl (by omega) hbuf hlim hsum
        (by omega)

/-- A run of `Read` calls keeps the invariant. -/
theorem chunkedFormReader.run_inv (limit : Int) (hpos : 0 < limit) (ps : List (List Byte)) :
    ∀ (acc : Nat) (a : chunkedFormReader), chunkedFormReader.inv limit acc a →
      ∃ b ns, a.run ps = some (.ret (b, ns)) ∧ chunkedFormReader.inv limit (acc + ns.sum) b := by
  induction ps with
  | nil =>
    intro acc a h
    exact ⟨a, [], rfl, by simpa using h⟩
  | cons p ps ih =>
    intro acc a h
    obtain ⟨res, hres, hinv⟩ := chunkedFormReader.Read_inv limit hpos acc a p h
    obtain ⟨b, ns, hrun, hinv1⟩ := ih (acc + res.n) res.s hinv
    refine ⟨b, res.n :: ns, ?_, ?_⟩
    · simp only [chunkedFormReader.run, hres, hrun]
    · simpa [List.sum_cons, Nat.add_assoc] using hinv1

theorem chunkedFormReader.new_inv (r : Reader) (limit : Int) (hpos : 0 < limit) :
    chunkedFormReader.inv limit 0 (chunkedFormReader.new r limit) := by
  refine ⟨List.length_replicate _ _, rfl, ?_, ?_, ?_⟩
  · show ((0 : Nat) : Int) + ((0 : Nat) : Int) ≤ limit
    simp only [Nat.cast_zero, add_zero]
    omega
  · show 0 + (0 - 0) ≤ 0
    omega
  · show 0 ≤ 4096
    omega

/-- C4: an adapter with `limitSize > 0`, started from the zero state on any source: after every
run of `Read` calls (whatever the caller buffers) the calls have returned and `rs + chunkSize`
is at most `limitSize`, hence the sum of the counts returned is at most `limitSize`; and in
every state so reached, a size line that would push the running total past `limitSize` makes
`Read` return `(0, ErrBodyTooLarge)` with the cursor right after the size line and the staging
buffer untouched. -/
theorem chunkedFormReader_limit_invariant (r : Reader) (limitSize : Int)
    (hpos : 0 < limitSize) :
    (∀ ps : List (List Byte), ∃ a ns,
      (chunkedFormReader.new r limitSize).run ps = some (.ret (a, ns))
        ∧ (a.rs : Int) + a.chunkSize ≤ limitSize ∧ (ns.sum : Int) ≤ limitSize)
    ∧ (∀ (ps : List (List Byte)) (a : chunkedFormReader) (ns : List Nat),
      (chunkedFormReader.new r limitSize).run ps = some (.ret (a, ns)) →
      ∀ (ds ext rest : List Byte) (sched : List Nat) (fin : Error) (p : List Byte),
        a.r = ⟨sizeLine ds ext ++ rest, sched, fin⟩ → okDigits ds → okExt ext →
        a.wt ≤ a.rd → a.chunkSize = 0 → limitSize < (a.rs : Int) + hexValue ds →
        a.Read p = some (.ret ⟨p, 0, some .ErrBodyTooLarge,
          { a with r := ⟨rest, sched, fin⟩ }⟩)) := by
  constructor
  · intro ps
    obtain ⟨b, ns, hrun, hbuf, hlim, hsum, hacc, hwt⟩ :=
      chunkedFormReader.run_inv limitSize hpos ps 0 _ (chunkedFormReader.new_inv r limitSize hpos)
    refine ⟨b, ns, hrun, hsum, ?_⟩
    have h1 : (ns.sum : Int) ≤ b.rs := by
      have : ns.sum ≤ b.rs := by omega
      exact_mod_cast this
    have h2 : (0 : Int) ≤ b.chunkSize := Int.ofNat_nonneg _
    omega
  · intro ps a ns hrun ds ext rest sched fin p hr hds hext hw hcs hover
    obtain ⟨b, ns1, hrun1, hbuf, hlim, hsum, hacc, hwt⟩ :=
      chunkedFormReader.run_inv limitSize hpos ps 0 _ (chunkedFormReader.new_inv r limitSize hpos)
    rw [hrun] at hrun1
    simp only [Option.some.injEq, Outcome.ret.injEq, Prod.mk.injEq] at hrun1
    obtain ⟨hab, _⟩ := hrun1
    subst hab
    have hparse := parseChunkSize_sizeLine ds ext hds hext rest sched fin
    rw [← hr] at hparse
    have hne : ¬ hexValue ds = 0 := by
      intro h0
      rw [h0] at hover
      have h2 : (0 : Int) ≤ a.chunkSize := Int.ofNat_nonneg _
      simp only [Nat.cast_zero, add_zero] at hover
      omega
    unfold chunkedFormReader.Read
    rw [if_neg (by omega), if_pos hcs, hparse]
    simp only [hne, if_false]
    rw [if_pos ⟨by rw [hlim]; exact hpos, by rw [hlim]; exact hover⟩]

/-- Witness of C4: limit 5, the body `3 CRLF abc CRLF 0 CRLF`, two calls with one-byte buffers. -/
theorem chunkedFormReader_limit_invariant_witness :
    ∃ a ns, (chunkedFormReader.new ⟨sampleBody, [], .EOF⟩ 5).run [[0], [0]]
        = some (.ret (a, ns)) ∧ (a.rs : Int) + a.chunkSize ≤ 5 ∧ (ns.sum : Int) ≤ 5 :=
  (chunkedFormReader_limit_invariant ⟨sampleBody, [], .EOF⟩ 5 (by decide)).1 [[0], [0]]

/-- With nothing staged and a chunk in flight, `Read` pages that chunk. -/
theorem chunkedFormReader.Read_inflight (a : chunkedFormReader) (p : List Byte)
    (hw : a.wt ≤ a.rd) (hcs : 0 < a.chunkSize) : a.Read p = a.page a.chunkSize p := by
  unfold chunkedFormReader.Read
  rw [if_neg (by omega), if_neg (by omega)]

/-- With nothing staged and no chunk in flight, `Read` parses the size line and, when the chunk
is within the limit, pages it. -/
theorem chunkedFormReader.Read_fresh (a : chunkedFormReader) (p : List Byte)
    (ds ext rest : List Byte) (sched : List Nat) (fin : Error) (hw : a.wt ≤ a.rd)
    (hcs : a.chunkSize = 0) (hr : a.r = ⟨sizeLine ds ext ++ rest, sched, fin⟩)
    (hds : okDigits ds) (hext : okExt ext) (hpos : 0 < hexValue ds)
    (hlim : ¬ (a.limitSize > 0 ∧ (a.rs : Int) + hexValue ds > a.limitSize)) :
    a.Read p = chunkedFormReader.page
      { a with r := ⟨rest, sched, fin⟩, chunkSize := hexValue ds } (hexValue ds) p := by
  have hparse := parseChunkSize_sizeLine ds ext hds hext rest sched fin
  rw [← hr] at hparse
  unfold chunkedFormReader.Read
  rw [if_neg (by omega), if_pos hcs, hparse]
  simp only
  rw [if_neg (by omega), if_neg hlim]

/-- The last page of a chunk whose payload is not followed by CRLF. -/
theorem chunkedFormReader.page_broken (a : chunkedFormReader) (p payload rest : List Byte)
    (x y : Byte) (hxy : [x, y] ≠ strCRLF) (hpos : 0 < payload.length)
    (hle : payload.length ≤ 4096) (hcs : a.chunkSize = payload.length)
    (hbuf : a.buf.length = 4098) (hdata : a.r.data = payload ++ [x, y] ++ rest) :
    ∃ s, a.page payload.length p
      = some (.ret ⟨p, 0, some (.ErrBrokenChunk .noCrlfAtEnd), s⟩) := by
  obtain ⟨c1, c2, c3, c4, c5, c6, c7, c8, c9⟩ :=
    chunkedFormReader.cut_spec a payload.length hcs hpos
  unfold chunkedFormReader.page
  generalize (a.cut payload.length).1 = a1 at *
  generalize (a.cut payload.length).2.1 = n at *
  generalize (a.cut payload.length).2.2 = c at *
  rw [if_neg (by omega)] at c7 c8
  subst c7 c8
  have hlen : a1.r.data.length = payload.length + 2 + rest.length := by
    rw [c3, hdata]
    simp only [List.length_append, List.length_cons, List.length_nil]
  obtain ⟨sched1, hs⟩ := chunkedFormReader.stage_full a1 payload.length (payload.length + 2) p
    (by rw [c2, hbuf]; omega) (by omega) (by omega) (by omega)
  have htail : (a1.r.data.take (payload.length + 2)).drop payload.length = [x, y] := by
    rw [c3, hdata]
    have h1 : (payload ++ [x, y] ++ rest).take (payload.length + 2) = payload ++ [x, y] :=
      List.take_left' (by simp)
    rw [h1]
    exact List.drop_left' rfl
  rw [hs, htail, if_pos ⟨c9.mpr hle, hxy⟩]
  exact ⟨_, rfl⟩

/-- One iteration of the loop of `readBodyChunked2` on a chunk within the ceiling whose payload
is not followed by CRLF. -/
theorem readBodyChunked2.loop_broken (ds ext payload rest : List Byte) (x y : Byte)
    (hds : okDigits ds) (hext : okExt ext) (hval : hexValue ds = payload.length)
    (hpos : 0 < payload.length) (hxy : [x, y] ≠ strCRLF) (fuel : Nat) (sched : List Nat)
    (fin : Error) (m : Int) (dst : List Byte)
    (hlim : m ≤ 0 ∨ (dst.length : Int) + payload.length ≤ m) :
    ∃ sched1, readBodyChunked2.loop (fuel + 1)
        ⟨sizeLine ds ext ++ (payload ++ [x, y] ++ rest), sched, fin⟩ m dst
      = some (dst ++ (payload ++ [x, y]), some (.ErrBrokenChunk .noCrlfAtEnd),
          ⟨rest, sched1, fin⟩) := by
  have hparse := parseChunkSize_sizeLine ds ext hds hext (payload ++ [x, y] ++ rest) sched fin
  obtain ⟨s1, hs1⟩ := appendBodyFixedSize_pkg_full (payload ++ [x, y] ++ rest) sched fin dst
    (payload.length + strCRLFLen) (by omega) (by simp [strCRLFLen, strCRLF])
  refine ⟨s1, ?_⟩
  have htake : (payload ++ [x, y] ++ rest).take (payload.length + strCRLFLen)
      = payload ++ [x, y] := List.take_left' (by simp [strCRLFLen, strCRLF])
  have hdrop : (payload ++ [x, y] ++ rest).drop (payload.length + strCRLFLen) = rest :=
    List.drop_left' (by simp [strCRLFLen, strCRLF])
  rw [htake, hdrop] at hs1
  have hne : ¬ payload.length = 0 := by omega
  have hcheck : ¬ (m > 0 ∧ (dst.length : Int) + (payload.length : Int) > m) := by
    rintro ⟨h1, h2⟩
    rcases hlim with h | h <;> omega
  have hlen2 : (dst ++ (payload ++ [x, y])).length - strCRLFLen = (dst ++ payload).length := by
    simp only [strCRLFLen, strCRLF, List.length_append, List.length_cons, List.length_nil]
    omega
  have hd2 : (dst ++ (payload ++ [x, y])).drop ((dst ++ (payload ++ [x, y])).length
      - strCRLFLen) = [x, y] := by
    rw [hlen2, ← List.append_assoc]
    exact List.drop_left' rfl
  rw [readBodyChunked2.loop, hparse]
  simp only [hval, hne, if_false, hcheck, hs1, hd2, ne_eq, hxy, not_false_eq_true, if_true]

/-- C5: a chunk whose payload is followed by two bytes other than CR LF, the chunk being within
the ceiling.  `readBodyChunked2` (no multipart boundary, empty `dst`, earlier chunks well-formed)
returns `ErrBrokenChunk`; and `chunkedFormReader.Read` returns `(0, ErrBrokenChunk)` on the call
that stages the final page of the chunk, be it the rest of a chunk in flight or a chunk of at
most 4096 bytes whose size line the call parses. -/
theorem broken_chunk_is_reported (payload rest : List Byte) (x y : Byte)
    (hxy : [x, y] ≠ strCRLF) (hpos : 0 < payload.length) :
    (∀ (d maxBodySize : Int) (decode : FormDecoder) (req : Request) (cs : List Chunk)
        (ds ext : List Byte) (sched : List Nat) (fin : Error),
      req.headerBoundary = [] → (∀ c ∈ cs, c.wellFormed) → okDigits ds → okExt ext →
      hexValue ds = payload.length →
      (clampedCeiling d maxBodySize ≤ 0
        ∨ ((payloads cs).length : Int) + payload.length ≤ clampedCeiling d maxBodySize) →
      ∃ sched1, readBodyChunked2 d decode req
          ⟨encodeChunks cs ++ (sizeLine ds ext ++ (payload ++ [x, y] ++ rest)), sched, fin⟩
          maxBodySize []
        = some (.ret ⟨req, payloads cs ++ (payload ++ [x, y]),
            some (.ErrBrokenChunk .noCrlfAtEnd), ⟨rest, sched1, fin⟩⟩))
    ∧ (∀ (a : chunkedFormReader) (p : List Byte),
      a.buf.length = 4098 → a.wt ≤ a.rd → a.chunkSize = payload.length →
      payload.length ≤ 4096 → a.r.data = payload ++ [x, y] ++ rest →
      ∃ s, a.Read p = some (.ret ⟨p, 0, some (.ErrBrokenChunk .noCrlfAtEnd), s⟩))
    ∧ (∀ (a : chunkedFormReader) (p ds ext : List Byte) (sched : List Nat) (fin : Error),
      a.buf.length = 4098 → a.wt ≤ a.rd → a.chunkSize = 0 → okDigits ds → okExt ext →
      hexValue ds = payload.length → payload.length ≤ 4096 →
      ¬ (a.limitSize > 0 ∧ (a.rs : Int) + hexValue ds > a.limitSize) →
      a.r = ⟨sizeLine ds ext ++ (payload ++ [x, y] ++ rest), sched, fin⟩ →
      ∃ s, a.Read p = some (.ret ⟨p, 0, some (.ErrBrokenChunk .noCrlfAtEnd), s⟩)) := by
  refine ⟨?_, ?_, ?_⟩
  · intro d maxBodySize decode req cs ds ext sched fin hb hcs hds hext hval hlim
    have hlen := length_le_encodeChunks cs
    obtain ⟨k, hk⟩ : ∃ k, (encodeChunks cs
        ++ (sizeLine ds ext ++ (payload ++ [x, y] ++ rest))).length + 1 = (k + 1) + cs.length := by
      refine ⟨(encodeChunks cs ++ (sizeLine ds ext ++ (payload ++ [x, y] ++ rest))).length
        - cs.length, ?_⟩
      simp only [List.length_append]; omega
    obtain ⟨s1, hs1⟩ := readBodyChunked2.loop_chunks cs hcs (k + 1)
      (sizeLine ds ext ++ (payload ++ [x, y] ++ rest)) sched fin (clampedCeiling d maxBodySize) []
      (by
        rcases hlim with h | h
        · exact Or.inl h
        · right
          have h2 : (0 : Int) ≤ payload.length := Int.ofNat_nonneg _
          simp only [List.length_nil, Nat.cast_zero, zero_add]
          omega)
    obtain ⟨s2, hs2⟩ := readBodyChunked2.loop_broken ds ext payload rest x y hds hext hval hpos
      hxy k s1 fin (clampedCeiling d maxBodySize) ([] ++ payloads cs)
      (by simpa using hlim)
    refine ⟨s2, ?_⟩
    rw [readBodyChunked2_of_loop d decode req _ maxBodySize hb
      ([] ++ payloads cs ++ (payload ++ [x, y]), some (.ErrBrokenChunk .noCrlfAtEnd),
        ⟨rest, s2, fin⟩)]
    · simp
    · show readBodyChunked2.loop ((encodeChunks cs
        ++ (sizeLine ds ext ++ (payload ++ [x, y] ++ rest))).length + 1) _ _ _ = _
      rw [hk, hs1, hs2]
  · intro a p hbuf hw hcs hle hdata
    rw [chunkedFormReader.Read_inflight a p hw (by omega), hcs]
    exact chunkedFormReader.page_broken a p payload rest x y hxy hpos hle hcs hbuf hdata
  · intro a p ds ext sched fin hbuf hw hcs hds hext hval hle hlim hr
    rw [chunkedFormReader.Read_fresh a p ds ext (payload ++ [x, y] ++ rest) sched fin hw hcs hr
      hds hext (by omega) hlim, hval]
    exact chunkedFormReader.page_broken _ p payload rest x y hxy hpos hle rfl hbuf rfl

/-- Witness of C5: the chunk `1 CRLF a` followed by `a LF`, read through a fresh adapter. -/
theorem broken_chunk_is_reported_witness :
    ∃ s, (chunkedFormReader.new ⟨sizeLine [49] [] ++ ([97] ++ [97, 10] ++ [48]), [], .EOF⟩ 0).Read
        [0, 0] = some (.ret ⟨[0, 0], 0, some (.ErrBrokenChunk .noCrlfAtEnd), s⟩) :=
  (broken_chunk_is_reported [97] [48] 97 10 (by decide) (by decide)).2.2
    (chunkedFormReader.new ⟨sizeLine [49] [] ++ ([97] ++ [97, 10] ++ [48]), [], .EOF⟩ 0)
    [0, 0] [49] [] [] .EOF (List.length_replicate _ _) (Nat.le_refl 0) rfl (by decide)
    (by decide) (by decide) (by decide) (by decide) rfl

/-- Paging a chunk when the source ends before the page is complete. -/
theorem chunkedFormReader.page_truncated (a : chunkedFormReader) (p : List Byte)
    (chunkSize : Nat) (hcs : a.chunkSize = chunkSize) (hpos : 0 < chunkSize)
    (hbuf : a.buf.length = 4098) (hfin : a.r.fin = .EOF)
    (hdata : a.r.data.length < (if chunkSize > 4096 then 4096 else chunkSize + 2)) :
    ∃ s, a.page chunkSize p = some (.ret ⟨p, 0, some .ErrUnexpectedEOF, s⟩) := by
  obtain ⟨c1, c2, c3, c4, c5, c6, c7, c8, c9⟩ := chunkedFormReader.cut_spec a chunkSize hcs hpos
  unfold chunkedFormReader.page
  generalize (a.cut chunkSize).1 = a1 at *
  generalize (a.cut chunkSize).2.1 = n at *
  generalize (a.cut chunkSize).2.2 = c at *
  have hc : c ≤ 4098 := by rw [c8]; split_ifs <;> omega
  obtain ⟨s, hs, _⟩ := chunkedFormReader.stage_short a1 n c p (by rw [c2, hbuf]; exact hc)
    (by rw [c3, c8]; exact hdata)
  rw [c3, hfin] at hs
  exact ⟨s, hs⟩

/-- C6: `chunkedFormReader.Read` fails with `io.ErrUnexpectedEOF` and returns 0 bytes on the
call that pages a part of a chunk which the source, ending with end of stream, no longer holds
in full (the page of 4096 bytes, or the rest of the chunk and its CRLF), be the chunk in flight
or its size line parsed by that call; and the helper `appendBodyFixedSize`, filling a window of
the requested length `n`, always returns, returns `io.ErrUnexpectedEOF` exactly when such a
source holds fewer than `n` bytes, succeeds exactly when the source holds `n` bytes, and on
success has filled the window with the first `n` bytes of the source, in order, and consumed
exactly these. -/
theorem truncated_chunk_is_unexpected_eof :
    (∀ (a : chunkedFormReader) (p : List Byte),
      a.buf.length = 4098 → a.wt ≤ a.rd → 0 < a.chunkSize → a.r.fin = .EOF →
      a.r.data.length < (if a.chunkSize > 4096 then 4096 else a.chunkSize + 2) →
      ∃ s, a.Read p = some (.ret ⟨p, 0, some .ErrUnexpectedEOF, s⟩))
    ∧ (∀ (a : chunkedFormReader) (p ds ext rest : List Byte) (sched : List Nat),
      a.buf.length = 4098 → a.wt ≤ a.rd → a.chunkSize = 0 → okDigits ds → okExt ext →
      0 < hexValue ds → ¬ (a.limitSize > 0 ∧ (a.rs : Int) + hexValue ds > a.limitSize) →
      a.r = ⟨sizeLine ds ext ++ rest, sched, .EOF⟩ →
      rest.length < (if hexValue ds > 4096 then 4096 else hexValue ds + 2) →
      ∃ s, a.Read p = some (.ret ⟨p, 0, some .ErrUnexpectedEOF, s⟩))
    ∧ (∀ (r : Reader) (dst : List Byte) (n : Nat), dst.length = n →
      ∃ f, chunkedFormReader.appendBodyFixedSize r dst n = some f
        ∧ (r.fin = .EOF → (f.err = some .ErrUnexpectedEOF ↔ r.data.length < n))
        ∧ (f.err = none ↔ n ≤ r.data.length)
        ∧ (f.err = none →
            f.dst = r.data.take n ∧ f.offset = n ∧ f.r.data = r.data.drop n ∧ f.r.fin = r.fin)) := by
  refine ⟨?_, ?_, ?_⟩
  · intro a p hbuf hw hcs hfin hdata
    rw [chunkedFormReader.Read_inflight a p hw hcs]
    exact chunkedFormReader.page_truncated a p a.chunkSize rfl hcs hbuf hfin hdata
  · intro a p ds ext rest sched hbuf hw hcs hds hext hpos hlim hr hdata
    rw [chunkedFormReader.Read_fresh a p ds ext rest sched .EOF hw hcs hr hds hext hpos hlim]
    exact chunkedFormReader.page_truncated _ p (hexValue ds) rfl hpos hbuf rfl hdata
  · intro r dst n hlen
    by_cases hn : n = 0
    · subst hn
      have hdst : dst = [] := List.length_eq_zero.mp hlen
      subst hdst
      refine ⟨⟨[], 0, none, r⟩, by simp [chunkedFormReader.appendBodyFixedSize], ?_, ?_, ?_⟩
      · intro _; simp
      · simp
      · intro _; simp
    · by_cases hd : n ≤ r.data.length
      · obtain ⟨s1, hs1⟩ := chunkedFormReader.appendBodyFixedSize_full r dst n hlen (by omega) hd
        refine ⟨_, hs1, ?_, ?_, ?_⟩
        · intro _
          constructor
          · intro h; cases h
          · intro h; omega
        · simp only [true_iff]; exact hd
        · intro _; exact ⟨rfl, rfl, rfl, rfl⟩
      · obtain ⟨s1, hs1⟩ := chunkedFormReader.appendBodyFixedSize_short r dst n hlen (by omega)
        refine ⟨_, hs1, ?_, ?_, ?_⟩
        · intro hfin
          simp only [hfin, readFailure, true_iff]
          omega
        · constructor
          · intro h; cases h
          · intro h; exact absurd h hd
        · intro h
          simp at h

/-- Witness of C6: the size line `3 CRLF` followed by the two bytes `ab` and the end of the
stream. -/
theorem truncated_chunk_is_unexpected_eof_witness :
    ∃ s, (chunkedFormReader.new ⟨sizeLine [51] [] ++ [97, 98], [], .EOF⟩ 0).Read [0, 0, 0, 0]
      = some (.ret ⟨[0, 0, 0, 0], 0, some .ErrUnexpectedEOF, s⟩) :=
  truncated_chunk_is_unexpected_eof.2.1
    (chunkedFormReader.new ⟨sizeLine [51] [] ++ [97, 98], [], .EOF⟩ 0) [0, 0, 0, 0] [51] []
    [97, 98] [] (List.length_replicate _ _) (Nat.le_refl 0) rfl (by decide) (by decide)
    (by decide) (by decide) rfl (by decide)

/-- C7 (the code at the failing input): limit 100, a source of 500 bytes, a pooled buffer of
4096 bytes.  When the first `Read` of the source delivers 60 bytes, the copy writes 160 bytes
and returns the count 160 with a nil error.  When the reads deliver 60, 30 and 50 bytes, it
writes 190 bytes, the last 40 of which are not bytes of the source but what the pooled buffer
held. -/
theorem limitCopyZeroAlloc_exceeds_limit :
    copiedOf (limitCopyZeroAlloc pool4096 [] ⟨List.replicate 500 7, [59], .EOF⟩ 100)
      = some (.ret (List.replicate 160 7, 160, none))
    ∧ copiedOf (limitCopyZeroAlloc pool4096 [] ⟨List.replicate 500 7, [59, 29, 49], .EOF⟩ 100)
      = some (.ret (List.replicate 150 7 ++ List.replicate 40 0, 190, none)) := by
  constructor <;> decide!

/-- C8 (the code at the failing input): boundary `b`, ceiling 128, the field `a` with the value
`bb` and a file of 40 bytes `x` whose first `Read` delivers 20 bytes.  The copy of the file
starts when the output holds 100 bytes, so at most 28 bytes of the file may follow; the part
carries 48 bytes, the 40 bytes of the file and 8 bytes that the pooled buffer held.  With the
ceiling 10000 and a file of 10240 bytes read in full buffers, the call aborts in the copy. -/
theorem writeMultipartForm_file_exceeds_ceiling :
    writtenOf (writeMultipartForm acceptAll pool4096 []
        (sampleForm [98, 98] ⟨List.replicate 40 120, [19], .EOF⟩) (ascii "b") 128)
      = some (.ret (ascii "--b\r\nContent-Disposition: form-data; name=\"a\"\r\n\r\nbb"
          ++ ascii "\r\n--b\r\nContent-Type: application/octet-stream\r\n\r\n"
          ++ (List.replicate 40 120 ++ List.replicate 8 0) ++ ascii "\r\n--b--\r\n",
        [ascii "f.bin"], none))
    ∧ (ascii "--b\r\nContent-Disposition: form-data; name=\"a\"\r\n\r\nbb"
          ++ ascii "\r\n--b\r\nContent-Type: application/octet-stream\r\n\r\n").length = 100
    ∧ writtenOf (writeMultipartForm acceptAll pool4096 []
        (sampleForm [98] ⟨List.replicate 10240 120, [], .EOF⟩) (ascii "b") 10000)
      = some (.panic .sliceBounds) := by
  refine ⟨by decide!, by decide!, ?_⟩
  set_option maxRecDepth 1000000 in decide!

/-- C9 (the code at the failing input): boundary `b`, ceiling 64, the field `a` with a value of
20 bytes and one file.  The field part alone takes 69 bytes, the call returns nil at line 72,
and the output is the field part without the closing boundary line. -/
theorem writeMultipartForm_returns_without_closing :
    writtenOf (writeMultipartForm acceptAll pool4096 []
        (sampleForm (List.replicate 20 98) ⟨List.replicate 40 120, [], .EOF⟩) (ascii "b") 64)
      = some (.ret (ascii "--b\r\nContent-Disposition: form-data; name=\"a\"\r\n\r\n"
          ++ List.replicate 20 98, [], none))
    ∧ ¬ (closingLine (ascii "b") <:+
        ascii "--b\r\nContent-Disposition: form-data; name=\"a\"\r\n\r\n"
          ++ List.replicate 20 98) := by
  refine ⟨?_, ?_⟩ <;> decide!

/-- Once the ceiling is reached the loop over the files of a field name stops at once. -/
theorem writeFiles_reached (limit : Int) (st : Encoding) (fvv : List FileHeader)
    (h : limit ≤ (st.B.length : Int)) : writeFiles limit st fvv = some (.ret (st, none)) := by
  cases fvv with
  | nil => rfl
  | cons fv fvv => rw [writeFiles, if_pos (ge_iff_le.mpr h)]

/-- Once the ceiling is reached the loop over the field names of the files changes nothing. -/
theorem writeFileGroups_reached (limit : Int) (st : Encoding)
    (groups : List (List Byte × List FileHeader)) (h : limit ≤ (st.B.length : Int)) :
    writeFileGroups limit st groups = some (.ret (st, none)) := by
  induction groups with
  | nil => rfl
  | cons g groups ih =>
    obtain ⟨k, fvv⟩ := g
    rw [writeFileGroups, writeFiles_reached limit st fvv h]
    exact ih

/-- The files after a run that ended without error are handled from the state it ended in. -/
theorem writeFiles_append (limit : Int) (fs1 fs2 : List FileHeader) :
    ∀ (st st1 : Encoding), writeFiles limit st fs1 = some (.ret (st1, none)) →
      writeFiles limit st (fs1 ++ fs2) = writeFiles limit st1 fs2 := by
  induction fs1 with
  | nil =>
    intro st st1 h
    simp only [writeFiles, Option.some.injEq, Outcome.ret.injEq, Prod.mk.injEq, and_true] at h
    subst h
    rfl
  | cons fv fs1 ih =>
    intro st st1 h
    rw [List.cons_append, writeFiles]
    rw [writeFiles] at h
    by_cases hr : (st.B.length : Int) ≥ limit
    · rw [if_pos hr] at h ⊢
      simp only [Option.some.injEq, Outcome.ret.injEq, Prod.mk.injEq, and_true] at h
      subst h
      exact (writeFiles_reached limit st fs2 hr).symm
    · rw [if_neg hr] at h ⊢
      cases ho : fv.openErr with
      | some e => rw [ho] at h; simp at h
      | none =>
        rw [ho] at h
        simp only at h ⊢
        cases hc : limitCopyZeroAlloc st.pool (st.mw.CreatePart st.B fv.Header).1 fv.content
            (limit - ((st.mw.CreatePart st.B fv.Header).1.length : Int)) with
        | none => rw [hc] at h; simp at h
        | some o =>
          cases o with
          | panic why => rw [hc] at h; simp at h
          | ret c =>
            rw [hc] at h
            simp only at h ⊢
            cases hce : c.err with
            | some e => rw [hce] at h; simp at h
            | none =>
              rw [hce] at h
              simp only at h ⊢
              cases hcl : fv.closeErr with
              | some e => rw [hcl] at h; simp at h
              | none =>
                rw [hcl] at h
                simp only at h ⊢
                exact ih _ st1 h

/-- The field names after a run that ended without error are handled from the state it ended
in. -/
theorem writeFileGroups_append (limit : Int) (g1 g2 : List (List Byte × List FileHeader)) :
    ∀ (st st1 : Encoding), writeFileGroups limit st g1 = some (.ret (st1, none)) →
      writeFileGroups limit st (g1 ++ g2) = writeFileGroups limit st1 g2 := by
  induction g1 with
  | nil =>
    intro st st1 h
    simp only [writeFileGroups, Option.some.injEq, Outcome.ret.injEq, Prod.mk.injEq,
      and_true] at h
    subst h
    rfl
  | cons g g1 ih =>
    intro st st1 h
    obtain ⟨k, fvv⟩ := g
    rw [List.cons_append, writeFileGroups]
    rw [writeFileGroups] at h
    cases hf : writeFiles limit st fvv with
    | none => rw [hf] at h; simp at h
    | some o =>
      cases o with
      | panic why => rw [hf] at h; simp at h
      | ret x =>
        obtain ⟨st2, e⟩ := x
        cases e with
        | some e => rw [hf] at h; simp at h
        | none =>
          rw [hf] at h
          simp only at h ⊢
          exact ih st2 st1 h

/-- C10: for every form and every non-empty boundary that the writer takes: when the output
after the field values is already at least the coerced ceiling, `writeMultipartForm` returns
nil, the output is the field parts alone and no file is opened; and when the ceiling is reached
between two files (the file loops having run without error up to there), every remaining file
is skipped without being opened and the call returns nil, the writer being closed. -/
theorem writeMultipartForm_stops_at_ceiling (accept : List Byte → Bool) (pool B : List Byte)
    (f : Form) (boundary : List Byte) (limitFormSize : Int) (hb : boundary.length ≠ 0)
    (hacc : accept boundary = true) :
    (coerceLimit limitFormSize ≤ ((writeValues ⟨boundary, false⟩ B f.Value).1.length : Int) →
      writeMultipartForm accept pool B f boundary limitFormSize
        = some (.ret ⟨(writeValues ⟨boundary, false⟩ B f.Value).1, [], pool, none⟩))
    ∧ (∀ (g1 : List (List Byte × List FileHeader)) (k : List Byte) (fs1 fs2 : List FileHeader)
        (g2 : List (List Byte × List FileHeader)) (st1 st2 : Encoding),
      f.File = g1 ++ (k, fs1 ++ fs2) :: g2 →
      ((writeValues ⟨boundary, false⟩ B f.Value).1.length : Int) < coerceLimit limitFormSize →
      writeFileGroups (coerceLimit limitFormSize)
        ⟨(writeValues ⟨boundary, false⟩ B f.Value).2,
          (writeValues ⟨boundary, false⟩ B f.Value).1, [], pool⟩ g1 = some (.ret (st1, none)) →
      writeFiles (coerceLimit limitFormSize) st1 fs1 = some (.ret (st2, none)) →
      coerceLimit limitFormSize ≤ (st2.B.length : Int) →
      writeMultipartForm accept pool B f boundary limitFormSize
        = some (.ret ⟨st2.mw.Close st2.B, st2.opened, st2.pool, none⟩)) := by
  have hacc1 : ¬ accept boundary = false := by rw [hacc]; decide
  constructor
  · intro h
    unfold writeMultipartForm
    rw [if_neg hb, if_neg hacc1, if_pos (ge_iff_le.mpr h)]
  · intro g1 k fs1 fs2 g2 st1 st2 hfile hlt hg hf hreached
    have h1 := writeFileGroups_append (coerceLimit limitFormSize) g1 ((k, fs1 ++ fs2) :: g2)
      _ st1 hg
    have h2 := writeFiles_append (coerceLimit limitFormSize) fs1 fs2 st1 st2 hf
    rw [writeFiles_reached _ st2 fs2 hreached] at h2
    rw [writeFileGroups, h2] at h1
    simp only at h1
    rw [writeFileGroups_reached _ st2 g2 hreached] at h1
    unfold writeMultipartForm
    rw [if_neg hb, if_neg hacc1, if_neg (not_le.mpr hlt), hfile, h1]

/-- Witness of C10: with the ceiling 64 a field value of 20 bytes leaves no room for the file;
with the ceiling 128 the first of two files of 40 bytes fills the output up to the ceiling and
the second file, `g.bin`, is not opened. -/
theorem writeMultipartForm_stops_at_ceiling_witness :
    writeMultipartForm acceptAll pool4096 []
        (sampleForm (List.replicate 20 98) ⟨List.replicate 40 120, [], .EOF⟩) (ascii "b") 64
      = some (.ret ⟨(writeValues ⟨ascii "b", false⟩ []
          (sampleForm (List.replicate 20 98) ⟨List.replicate 40 120, [], .EOF⟩).Value).1, [],
          pool4096, none⟩)
    ∧ writeMultipartForm acceptAll pool4096 [] twoFileForm (ascii "b") 128
      = some (.ret ⟨Writer.Close ⟨ascii "b", true⟩
          (ascii "--b\r\nContent-Disposition: form-data; name=\"a\"\r\n\r\nbb"
            ++ ascii "\r\n--b\r\nContent-Type: application/octet-stream\r\n\r\n"
            ++ List.replicate 28 120),
          [ascii "f.bin"], List.replicate 40 120 ++ List.replicate 4056 0, none⟩) :=
  ⟨(writeMultipartForm_stops_at_ceiling acceptAll pool4096 []
      (sampleForm (List.replicate 20 98) ⟨List.replicate 40 120, [], .EOF⟩) (ascii "b") 64
      (by decide) rfl).1 (by decide),
    (writeMultipartForm_stops_at_ceiling acceptAll pool4096 [] twoFileForm (ascii "b") 128
      (by decide) rfl).2 [] (ascii "f") [sampleFile ⟨List.replicate 40 120, [], .EOF⟩]
      [{ sampleFile ⟨List.replicate 40 121, [], .EOF⟩ with Filename := ascii "g.bin" }] []
      ⟨(writeValues ⟨ascii "b", false⟩ [] twoFileForm.Value).2,
        (writeValues ⟨ascii "b", false⟩ [] twoFileForm.Value).1, [], pool4096⟩
      ⟨⟨ascii "b", true⟩,
        ascii "--b\r\nContent-Disposition: form-data; name=\"a\"\r\n\r\nbb"
          ++ ascii "\r\n--b\r\nContent-Type: application/octet-stream\r\n\r\n"
          ++ List.replicate 28 120,
        [ascii "f.bin"], List.replicate 40 120 ++ List.replicate 4056 0⟩
      rfl (by decide!) rfl (by decide!) (by decide!)⟩

/-- C11: for every form, every destination buffer, every pooled buffer and every ceiling,
`writeMultipartForm` called with an empty boundary returns the error `form boundary cannot be
empty`, leaves the destination buffer as it was and calls `Open` on no file. -/
theorem writeMultipartForm_empty_boundary (accept : List Byte → Bool) (pool B : List Byte)
    (f : Form) (limitFormSize : Int) :
    writeMultipartForm accept pool B f [] limitFormSize
      = some (.ret ⟨B, [], pool, some .emptyBoundary⟩) := by
  unfold writeMultipartForm
  exact if_pos rfl

theorem coerceLimit_small (limitFormSize : Int) (h : limitFormSize < 64) :
    coerceLimit limitFormSize = coerceLimit 1024 := by
  unfold coerceLimit
  rw [if_pos h, if_neg (by norm_num)]

/-- C12: for every form, every boundary and every `limitFormSize` below 64, zero and negative
values included, `writeMultipartForm` returns the same result, writes the same bytes and opens
the same files as with `limitFormSize = 1024`. -/
theorem writeMultipartForm_coerces_small_limit (accept : List Byte → Bool) (pool B : List Byte)
    (f : Form) (boundary : List Byte) (limitFormSize : Int) (h : limitFormSize < 64) :
    writeMultipartForm accept pool B f boundary limitFormSize
      = writeMultipartForm accept pool B f boundary 1024 := by
  unfold writeMultipartForm
  rw [coerceLimit_small limitFormSize h]

/-- Witness of C12: the ceiling `-5` on a form with a field and a file of 40 bytes. -/
theorem writeMultipartForm_coerces_small_limit_witness :
    writeMultipartForm acceptAll pool4096 []
        (sampleForm [98] ⟨List.replicate 40 120, [], .EOF⟩) (ascii "b") (-5)
      = writeMultipartForm acceptAll pool4096 []
        (sampleForm [98] ⟨List.replicate 40 120, [], .EOF⟩) (ascii "b") 1024 :=
  writeMultipartForm_coerces_small_limit acceptAll pool4096 []
    (sampleForm [98] ⟨List.replicate 40 120, [], .EOF⟩) (ascii "b") (-5) (by decide)

theorem lastpartAfter_true {α : Type} (xs : List α) : lastpartAfter true xs = true := by
  cases xs <;> rfl

theorem lastpartAfter_append {α : Type} (lastpart : Bool) (xs ys : List α) :
    lastpartAfter lastpart (xs ++ ys) = lastpartAfter (lastpartAfter lastpart xs) ys := by
  cases xs with
  | nil => rfl
  | cons x xs =>
    rw [List.cons_append]
    show true = lastpartAfter true ys
    rw [lastpartAfter_true]

theorem lastpartAfter_map {α β : Type} (lastpart : Bool) (f : α → β) (xs : List α) :
    lastpartAfter lastpart (xs.map f) = lastpartAfter lastpart xs := by
  cases xs <;> rfl

theorem partsFrom_cons (boundary : List Byte) (lastpart : Bool)
    (x : List (List Byte × List Byte) × List Byte)
    (xs : List (List (List Byte × List Byte) × List Byte)) :
    partsFrom boundary lastpart (x :: xs)
      = partsFrom boundary lastpart [x] ++ partsFrom boundary true xs := by
  obtain ⟨h, body⟩ := x
  simp only [partsFrom, List.append_nil, List.append_assoc]

theorem partsFrom_append (boundary : List Byte)
    (xs ys : List (List (List Byte × List Byte) × List Byte)) :
    ∀ lastpart : Bool, partsFrom boundary lastpart (xs ++ ys)
      = partsFrom boundary lastpart xs ++ partsFrom boundary (lastpartAfter lastpart xs) ys := by
  induction xs with
  | nil => intro lastpart; simp [partsFrom, lastpartAfter]
  | cons x xs ih =>
    intro lastpart
    rw [List.cons_append, partsFrom_cons, ih true, partsFrom_cons boundary lastpart x xs,
      lastpartAfter_true, List.append_assoc]
    rfl

theorem startedBelow_append (limit : Int) (boundary : List Byte)
    (xs ys : List (List (List Byte × List Byte) × List Byte)) :
    ∀ (B : List Byte) (lastpart : Bool),
      startedBelow limit boundary B lastpart xs →
      startedBelow limit boundary (B ++ partsFrom boundary lastpart xs)
        (lastpartAfter lastpart xs) ys →
      startedBelow limit boundary B lastpart (xs ++ ys) := by
  induction xs with
  | nil =>
    intro B lastpart _ h
    simpa [partsFrom, lastpartAfter] using h
  | cons x xs ih =>
    intro B lastpart hx hy
    obtain ⟨h1, h2⟩ := hx
    refine ⟨h1, ?_⟩
    apply ih _ true h2
    rw [partsFrom_cons, ← List.append_assoc] at hy
    rw [lastpartAfter_true]
    exact hy

/-- What `CreatePart` has written, followed by a body, is a part. -/
theorem CreatePart_bytes (mw : Writer) (B : List Byte) (header : List (List Byte × List Byte))
    (body : List Byte) :
    (mw.CreatePart B header).1 ++ body
      = B ++ partsFrom mw.boundary mw.lastpart [(header, body)] := by
  simp only [Writer.CreatePart, partsFrom, List.append_assoc, List.append_nil]

/-- The loop over the values of a field name writes their parts in order. -/
theorem writeValue_parts (k : List Byte) (vv : List (List Byte)) :
    ∀ (boundary : List Byte) (lastpart : Bool) (B : List Byte),
      writeValue k ⟨boundary, lastpart⟩ B vv
        = (B ++ partsFrom boundary lastpart (vv.map (fun v => (fieldHeader k, v))),
            ⟨boundary, lastpartAfter lastpart vv⟩) := by
  induction vv with
  | nil => intro boundary lastpart B; simp [writeValue, partsFrom, lastpartAfter]
  | cons v vv ih =>
    intro boundary lastpart B
    have h1 : (Writer.WriteField ⟨boundary, lastpart⟩ B k v).1
        = B ++ partsFrom boundary lastpart [(fieldHeader k, v)] :=
      CreatePart_bytes ⟨boundary, lastpart⟩ B (fieldHeader k) v
    have h2 : (Writer.WriteField ⟨boundary, lastpart⟩ B k v).2 = ⟨boundary, true⟩ := rfl
    have hc := partsFrom_cons boundary lastpart (fieldHeader k, v)
      (vv.map (fun v => (fieldHeader k, v)))
    rw [writeValue, h1, h2, ih, List.map_cons, hc, lastpartAfter_true, List.append_assoc]
    rfl

/-- The loop over the field names writes the parts of the field values in order. -/
theorem writeValues_parts (vals : List (List Byte × List (List Byte))) :
    ∀ (boundary : List Byte) (lastpart : Bool) (B : List Byte),
      writeValues ⟨boundary, lastpart⟩ B vals
        = (B ++ partsFrom boundary lastpart (fieldParts vals),
            ⟨boundary, lastpartAfter lastpart (fieldParts vals)⟩) := by
  induction vals with
  | nil => intro boundary lastpart B; simp [writeValues, fieldParts, partsFrom, lastpartAfter]
  | cons kv vals ih =>
    intro boundary lastpart B
    obtain ⟨k, vv⟩ := kv
    rw [writeValues, writeValue_parts, ih]
    simp only [fieldParts, partsFrom_append, lastpartAfter_append, lastpartAfter_map,
      List.append_assoc]

/-- A copy only appends to its destination. -/
theorem copyBufferLoop_appends (fuel : Nat) :
    ∀ (w : List Byte) (src : myLimitReader) (buf : List Byte) (written : Int) (c : Copied),
      copyBufferLoop fuel w src buf written = some (.ret c) → ∃ x, c.w = w ++ x := by
  induction fuel with
  | zero => intro w src buf written c h; simp [copyBufferLoop] at h
  | succ fuel ih =>
    intro w src buf written c h
    rw [copyBufferLoop] at h
    rcases hread : src.Read buf.length with ⟨got, nr, er, src1⟩
    rw [hread] at h
    simp only at h
    by_cases hnr : nr > 0
    · rw [if_pos hnr] at h
      by_cases hb : nr.toNat > (got ++ buf.drop got.length).length
      · rw [if_pos hb] at h; simp at h
      · rw [if_neg hb] at h
        cases er with
        | some e =>
          simp only [Option.some.injEq, Outcome.ret.injEq] at h
          subst h
          exact ⟨_, rfl⟩
        | none =>
          simp only at h
          obtain ⟨x, hx⟩ := ih _ _ _ _ c h
          exact ⟨_, by rw [hx, List.append_assoc]⟩
    · rw [if_neg hnr] at h
      cases er with
      | some e =>
        simp only [Option.some.injEq, Outcome.ret.injEq] at h
        subst h
        exact ⟨[], by simp⟩
      | none =>
        simp only at h
        exact ih _ _ _ _ c h

theorem limitCopyZeroAlloc_appends (pool w : List Byte) (r : Reader) (limit : Int) (c : Copied)
    (h : limitCopyZeroAlloc pool w r limit = some (.ret c)) : ∃ x, c.w = w ++ x := by
  unfold limitCopyZeroAlloc at h
  by_cases hp : pool.length = 0
  · rw [if_pos hp] at h; simp at h
  · rw [if_neg hp] at h
    exact copyBufferLoop_appends _ _ _ _ _ c h

theorem Writer.eta (mw : Writer) : mw = ⟨mw.boundary, mw.lastpart⟩ := rfl

/-- What the loop over the files of a field name has written when it returns: the parts of the
files it handled, in order, these files being the first of the list; each part was started
while the output was below the ceiling; and when the loop ends without error before the end of
the list, the ceiling is reached. -/
theorem writeFiles_parts (limit : Int) (fvv : List FileHeader) :
    ∀ (st st1 : Encoding) (e : Option Error),
      writeFiles limit st fvv = some (.ret (st1, e)) →
      ∃ (handled : List (FileHeader × List Byte)) (rest : List FileHeader),
        handled.map (fun d => d.1) ++ rest = fvv
        ∧ st1.B = st.B ++ partsFrom st.mw.boundary st.mw.lastpart (fileParts handled)
        ∧ st1.mw = ⟨st.mw.boundary, lastpartAfter st.mw.lastpart handled⟩
        ∧ st1.opened = st.opened ++ handled.map (fun d => d.1.Filename)
        ∧ startedBelow limit st.mw.boundary st.B st.mw.lastpart (fileParts handled)
        ∧ (e = none → rest = [] ∨ limit ≤ (st1.B.length : Int)) := by
  induction fvv with
  | nil =>
    intro st st1 e h
    simp only [writeFiles, Option.some.injEq, Outcome.ret.injEq, Prod.mk.injEq] at h
    obtain ⟨h1, h2⟩ := h
    subst h1 h2
    exact ⟨[], [], rfl, by simp [fileParts, partsFrom], rfl, by simp, trivial,
      fun _ => Or.inl rfl⟩
  | cons fv fvv ih =>
    intro st st1 e h
    rw [writeFiles] at h
    by_cases hr : (st.B.length : Int) ≥ limit
    · rw [if_pos hr] at h
      simp only [Option.some.injEq, Outcome.ret.injEq, Prod.mk.injEq] at h
      obtain ⟨h1, h2⟩ := h
      subst h1 h2
      exact ⟨[], fv :: fvv, rfl, by simp [fileParts, partsFrom], rfl, by simp, trivial,
        fun _ => Or.inr hr⟩
    · rw [if_neg hr] at h
      have hlt : (st.B.length : Int) < limit := not_le.mp hr
      have one : ∀ (x : List Byte),
          ∃ (handled : List (FileHeader × List Byte)) (rest : List FileHeader),
            handled.map (fun d => d.1) ++ rest = fv :: fvv
            ∧ (st.mw.CreatePart st.B fv.Header).1 ++ x
                = st.B ++ partsFrom st.mw.boundary st.mw.lastpart (fileParts handled)
            ∧ (st.mw.CreatePart st.B fv.Header).2
                = ⟨st.mw.boundary, lastpartAfter st.mw.lastpart handled⟩
            ∧ st.opened ++ [fv.Filename] = st.opened ++ handled.map (fun d => d.1.Filename)
            ∧ startedBelow limit st.mw.boundary st.B st.mw.lastpart (fileParts handled) := by
        intro x
        exact ⟨[(fv, x)], fvv, rfl, CreatePart_bytes st.mw st.B fv.Header x, rfl, rfl,
          ⟨hlt, trivial⟩⟩
      cases ho : fv.openErr with
      | some e0 =>
        rw [ho] at h
        simp only [Option.some.injEq, Outcome.ret.injEq, Prod.mk.injEq] at h
        obtain ⟨h1, h2⟩ := h
        subst h1 h2
        obtain ⟨handled, rest, a1, a2, a3, a4, a5⟩ := one []
        rw [List.append_nil] at a2
        exact ⟨handled, rest, a1, a2, a3, a4, a5, fun hn => by cases hn⟩
      | none =>
        rw [ho] at h
        simp only at h
        cases hc : limitCopyZeroAlloc st.pool (st.mw.CreatePart st.B fv.Header).1 fv.content
            (limit - ((st.mw.CreatePart st.B fv.Header).1.length : Int)) with
        | none => rw [hc] at h; simp at h
        | some o =>
          cases o with
          | panic why => rw [hc] at h; simp at h
          | ret c =>
            rw [hc] at h
            simp only at h
            obtain ⟨x, hx⟩ := limitCopyZeroAlloc_appends _ _ _ _ c hc
            obtain ⟨handled, rest, a1, a2, a3, a4, a5⟩ := one x
            rw [← hx] at a2
            cases hce : c.err with
            | some e1 =>
              rw [hce] at h
              simp only [Option.some.injEq, Outcome.ret.injEq, Prod.mk.injEq] at h
              obtain ⟨h1, h2⟩ := h
              subst h1 h2
              exact ⟨handled, rest, a1, a2, a3, a4, a5, fun hn => by cases hn⟩
            | none =>
              rw [hce] at h
              simp only at h
              cases hcl : fv.closeErr with
              | some e2 =>
                rw [hcl] at h
                simp only [Option.some.injEq, Outcome.ret.injEq, Prod.mk.injEq] at h
                obtain ⟨h1, h2⟩ := h
                subst h1 h2
                exact ⟨handled, rest, a1, a2, a3, a4, a5, fun hn => by cases hn⟩
              | none =>
                rw [hcl] at h
                simp only at h
                have hmw : (st.mw.CreatePart st.B fv.Header).2 = ⟨st.mw.boundary, true⟩ := rfl
                rw [hmw] at h
                obtain ⟨handled2, rest2, b1, b2, b3, b4, b5, b6⟩ := ih _ st1 e h
                simp only at b2 b3 b4 b5
                have hcons := partsFrom_cons st.mw.boundary st.mw.lastpart (fv.Header, x)
                  (fileParts handled2)
                refine ⟨(fv, x) :: handled2, rest2, ?_, ?_, ?_, ?_, ?_, b6⟩
                · simp only [List.map_cons, List.cons_append, b1]
                · rw [b2, hx, CreatePart_bytes, List.append_assoc]
                  show _ = st.B ++ partsFrom st.mw.boundary st.mw.lastpart
                    ((fv.Header, x) :: fileParts handled2)
                  rw [hcons]
                · rw [b3, lastpartAfter_true]
                  rfl
                · rw [b4, List.append_assoc]
                  rfl
                · refine ⟨hlt, ?_⟩
                  have hB : c.w = st.B ++ partsFrom st.mw.boundary st.mw.lastpart
                      [(fv.Header, x)] := by
                    rw [hx]; exact CreatePart_bytes st.mw st.B fv.Header x
                  rw [hB] at b5
                  exact b5

theorem fileParts_append (xs ys : List (FileHeader × List Byte)) :
    fileParts (xs ++ ys) = fileParts xs ++ fileParts ys := by
  simp [fileParts]

/-- What the loops over the files have written when they return: the parts of the files handled,
in order, these files being the first of the file list; each part was started while the output
was below the ceiling; and when the loops end without error before the end of the list, the
ceiling is reached. -/
theorem writeFileGroups_parts (limit : Int) (groups : List (List Byte × List FileHeader)) :
    ∀ (st st1 : Encoding) (e : Option Error),
      writeFileGroups limit st groups = some (.ret (st1, e)) →
      ∃ (handled : List (FileHeader × List Byte)) (rest : List FileHeader),
        handled.map (fun d => d.1) ++ rest = filesOf groups
        ∧ st1.B = st.B ++ partsFrom st.mw.boundary st.mw.lastpart (fileParts handled)
        ∧ st1.mw = ⟨st.mw.boundary, lastpartAfter st.mw.lastpart handled⟩
        ∧ st1.opened = st.opened ++ handled.map (fun d => d.1.Filename)
        ∧ startedBelow limit st.mw.boundary st.B st.mw.lastpart (fileParts handled)
        ∧ (e = none → rest = [] ∨ limit ≤ (st1.B.length : Int)) := by
  induction groups with
  | nil =>
    intro st st1 e h
    simp only [writeFileGroups, Option.some.injEq, Outcome.ret.injEq, Prod.mk.injEq] at h
    obtain ⟨h1, h2⟩ := h
    subst h1 h2
    exact ⟨[], [], rfl, by simp [fileParts, partsFrom], rfl, by simp, trivial,
      fun _ => Or.inl rfl⟩
  | cons g groups ih =>
    intro st st1 e h
    obtain ⟨k, fvv⟩ := g
    rw [writeFileGroups] at h
    cases hf : writeFiles limit st fvv with
    | none => rw [hf] at h; simp at h
    | some o =>
      cases o with
      | panic why => rw [hf] at h; simp at h
      | ret x =>
        obtain ⟨st2, e2⟩ := x
        obtain ⟨handled1, rest1, a1, a2, a3, a4, a5, a6⟩ := writeFiles_parts limit fvv st st2 e2 hf
        cases e2 with
        | some e0 =>
          rw [hf] at h
          simp only [Option.some.injEq, Outcome.ret.injEq, Prod.mk.injEq] at h
          obtain ⟨h1, h2⟩ := h
          subst h1 h2
          refine ⟨handled1, rest1 ++ filesOf groups, ?_, a2, a3, a4, a5, fun hn => by cases hn⟩
          rw [← List.append_assoc, a1]
          rfl
        | none =>
          rw [hf] at h
          simp only at h
          rcases a6 rfl with hrest | hreached
          · subst hrest
            rw [List.append_nil] at a1
            obtain ⟨handled2, rest2, b1, b2, b3, b4, b5, b6⟩ := ih st2 st1 e h
            rw [a3] at b2 b3 b5
            simp only at b2 b3 b5
            have hflag : lastpartAfter st.mw.lastpart (fileParts handled1)
                = lastpartAfter st.mw.lastpart handled1 := lastpartAfter_map _ _ _
            refine ⟨handled1 ++ handled2, rest2, ?_, ?_, ?_, ?_, ?_, b6⟩
            · rw [List.map_append, List.append_assoc, b1, a1]
              rfl
            · rw [b2, a2, fileParts_append, partsFrom_append, hflag, List.append_assoc]
            · rw [b3, lastpartAfter_append]
            · rw [b4, a4, List.map_append, List.append_assoc]
            · rw [fileParts_append]
              apply startedBelow_append _ _ _ _ _ _ a5
              rw [hflag, ← a2]
              exact b5
          · rw [writeFileGroups_reached limit st2 groups hreached] at h
            simp only [Option.some.injEq, Outcome.ret.injEq, Prod.mk.injEq] at h
            obtain ⟨h1, h2⟩ := h
            subst h1 h2
            refine ⟨handled1, rest1 ++ filesOf groups, ?_, a2, a3, a4, a5, fun _ => Or.inr hreached⟩
            rw [← List.append_assoc, a1]
            rfl

/-- What `writeMultipartForm` has written when it returns, for a non-empty boundary that the
writer takes: the parts of the field values, in the order of the lists, then the parts of the
files handled, the first of the file list in order, then nothing or the closing boundary; each
file part was started while the output was below the coerced ceiling. -/
theorem writeMultipartForm_parts (accept : List Byte → Bool) (pool B : List Byte) (f : Form)
    (boundary : List Byte) (limitFormSize : Int) (hb : boundary.length ≠ 0)
    (hacc : accept boundary = true) (w : Written)
    (h : writeMultipartForm accept pool B f boundary limitFormSize = some (.ret w)) :
    ∃ (handled : List (FileHeader × List Byte)) (rest : List FileHeader) (tail : List Byte),
      handled.map (fun d => d.1) ++ rest = filesOf f.File
      ∧ w.B = B ++ partsFrom boundary false (fieldParts f.Value ++ fileParts handled) ++ tail
      ∧ (tail = [] ∨ tail = strCRLF ++ closingLine boundary)
      ∧ w.opened = handled.map (fun d => d.1.Filename)
      ∧ startedBelow (coerceLimit limitFormSize) boundary
          (B ++ partsFrom boundary false (fieldParts f.Value))
          (lastpartAfter false (fieldParts f.Value)) (fileParts handled) := by
  have hacc1 : ¬ accept boundary = false := by rw [hacc]; decide
  have hv := writeValues_parts f.Value boundary false B
  unfold writeMultipartForm at h
  rw [if_neg hb, if_neg hacc1, hv] at h
  simp only at h
  by_cases hr : ((B ++ partsFrom boundary false (fieldParts f.Value)).length : Int)
      ≥ coerceLimit limitFormSize
  · rw [if_pos hr] at h
    simp only [Option.some.injEq, Outcome.ret.injEq] at h
    subst h
    exact ⟨[], filesOf f.File, [], rfl, by simp [fileParts], Or.inl rfl, rfl, trivial⟩
  · rw [if_neg hr] at h
    cases hg : writeFileGroups (coerceLimit limitFormSize)
        ⟨⟨boundary, lastpartAfter false (fieldParts f.Value)⟩,
          B ++ partsFrom boundary false (fieldParts f.Value), [], pool⟩ f.File with
    | none => rw [hg] at h; simp at h
    | some o =>
      cases o with
      | panic why => rw [hg] at h; simp at h
      | ret x =>
        obtain ⟨st, e⟩ := x
        obtain ⟨handled, rest, a1, a2, a3, a4, a5, _⟩ :=
          writeFileGroups_parts _ f.File _ st e hg
        simp only at a2 a3 a4 a5
        have hB : st.B = B ++ partsFrom boundary false (fieldParts f.Value ++ fileParts handled) := by
          rw [a2, partsFrom_append, List.append_assoc]
        rw [hg] at h
        cases e with
        | some e0 =>
          simp only [Option.some.injEq, Outcome.ret.injEq] at h
          subst h
          exact ⟨handled, rest, [], a1, by simp [hB], Or.inl rfl, by simp [a4], a5⟩
        | none =>
          simp only [Option.some.injEq, Outcome.ret.injEq] at h
          subst h
          refine ⟨handled, rest, strCRLF ++ closingLine boundary, a1, ?_, Or.inr rfl,
            by simp [a4], a5⟩
          simp only [Writer.Close, hB, a3, List.append_assoc]

/-- The copy loop ends, with a result or an abort, once the fuel exceeds the number of bytes
left in the source by two. -/
theorem copyBufferLoop_total (fuel : Nat) :
    ∀ (w : List Byte) (src : myLimitReader) (buf : List Byte) (written : Int),
      0 < buf.length → src.r.data.length + 1 < fuel →
      ∃ o, copyBufferLoop fuel w src buf written = some o := by
  induction fuel with
  | zero => intro w src buf written _ h; omega
  | succ fuel ih =>
    intro w src buf written hbuf hfuel
    obtain ⟨limit, cnt, r⟩ := src
    simp only at hfuel
    unfold copyBufferLoop
    unfold myLimitReader.Read
    simp only
    by_cases hnil : r.data = []
    · rw [Reader.Read_of_nil r _ hbuf hnil]
      simp only [List.length_nil, Nat.cast_zero, lt_self_iff_false, if_false]
      exact ⟨_, rfl⟩
    · rw [Reader.Read_of_data r _ hbuf hnil]
      simp only
      have hq1 : 0 < r.quota buf.length := r.quota_pos hbuf
      have hpos : 0 < r.data.length := List.length_pos.mpr hnil
      have hgot : (r.data.take (r.quota buf.length)).length
          = min (r.quota buf.length) r.data.length := List.length_take _ _
      by_cases hlim : cnt + ((r.data.take (r.quota buf.length)).length : Int) ≥ limit
      · rw [if_pos hlim]
        simp only
        split_ifs <;> exact ⟨_, rfl⟩
      · rw [if_neg hlim]
        simp only
        have hnr : ((r.data.take (r.quota buf.length)).length : Int) > 0 := by
          have : 0 < (r.data.take (r.quota buf.length)).length := by omega
          exact_mod_cast this
        rw [if_pos hnr]
        split_ifs
        · exact ⟨_, rfl⟩
        · apply ih
          · simp only [List.length_append, List.length_drop]; omega
          · simp only [List.length_drop]; omega

theorem limitCopyZeroAlloc_total (pool w : List Byte) (r : Reader) (limit : Int) :
    ∃ o, limitCopyZeroAlloc pool w r limit = some o := by
  unfold limitCopyZeroAlloc
  by_cases hp : pool.length = 0
  · rw [if_pos hp]; exact ⟨_, rfl⟩
  · rw [if_neg hp]
    exact copyBufferLoop_total _ w ⟨limit, 0, r⟩ pool 0 (by omega) (by simp only; omega)

theorem writeFiles_total (limit : Int) (fvv : List FileHeader) :
    ∀ st : Encoding, ∃ o, writeFiles limit st fvv = some o := by
  induction fvv with
  | nil => intro st; exact ⟨_, rfl⟩
  | cons fv fvv ih =>
    intro st
    unfold writeFiles
    split_ifs
    · exact ⟨_, rfl⟩
    · cases hopen : fv.openErr with
      | some e => exact ⟨_, rfl⟩
      | none =>
        simp only
        obtain ⟨o, ho⟩ := limitCopyZeroAlloc_total st.pool (st.mw.CreatePart st.B fv.Header).1
          fv.content (limit - ((st.mw.CreatePart st.B fv.Header).1.length : Int))
        rw [ho]
        cases o with
        | panic why => exact ⟨_, rfl⟩
        | ret c =>
          simp only
          cases hce : c.err with
          | some e => exact ⟨_, rfl⟩
          | none =>
            simp only
            cases hcl : fv.closeErr with
            | some e => exact ⟨_, rfl⟩
            | none => exact ih _

theorem writeFileGroups_total (limit : Int) (groups : List (List Byte × List FileHeader)) :
    ∀ st : Encoding, ∃ o, writeFileGroups limit st groups = some o := by
  induction groups with
  | nil => intro st; exact ⟨_, rfl⟩
  | cons g rest ih =>
    intro st
    obtain ⟨k, fvv⟩ := g
    unfold writeFileGroups
    obtain ⟨o, ho⟩ := writeFiles_total limit fvv st
    rw [ho]
    cases o with
    | panic why => exact ⟨_, rfl⟩
    | ret x =>
      obtain ⟨st1, e⟩ := x
      cases e with
      | some e => exact ⟨_, rfl⟩
      | none => exact ih st1

/-- The encoder always ends: it returns or aborts. -/
theorem writeMultipartForm_total (accept : List Byte → Bool) (pool B : List Byte) (f : Form)
    (boundary : List Byte) (limitFormSize : Int) :
    ∃ o, writeMultipartForm accept pool B f boundary limitFormSize = some o := by
  unfold writeMultipartForm
  split_ifs
  · exact ⟨_, rfl⟩
  · exact ⟨_, rfl⟩
  · exact ⟨_, rfl⟩
  · obtain ⟨o, ho⟩ := writeFileGroups_total (coerceLimit limitFormSize) f.File
      ⟨(writeValues ⟨boundary, false⟩ B f.Value).2,
        (writeValues ⟨boundary, false⟩ B f.Value).1, [], pool⟩
    rw [ho]
    cases o with
    | panic why => exact ⟨_, rfl⟩
    | ret x =>
      obtain ⟨st1, e⟩ := x
      cases e with
      | some e => exact ⟨_, rfl⟩
      | none => exact ⟨_, rfl⟩

/-- The method `BodyLimit` always ends: it returns or aborts. -/
theorem BodyLimit_total (accept : List Byte → Bool) (pool : List Byte)
    (errorText : Error → List Byte) (req : BodyRequest) (limitFormSize : Int) :
    ∃ o, BodyLimit accept pool errorText req limitFormSize = some o := by
  unfold BodyLimit
  cases hraw : req.bodyRaw with
  | some raw => exact ⟨_, rfl⟩
  | none =>
    simp only
    split_ifs
    · unfold marshalMultipartForm
      obtain ⟨o, ho⟩ := writeMultipartForm_total accept pool [] req.multipartForm
        req.multipartFormBoundary limitFormSize
      rw [ho]
      cases o with
      | panic why => exact ⟨_, rfl⟩
      | ret w =>
        simp only
        cases hw : w.err with
        | some e => exact ⟨_, rfl⟩
        | none => exact ⟨_, rfl⟩
    · exact ⟨_, rfl⟩

/-- C13 (as stated, refuted): the form maps are Go maps, which store no order among the field
names.  `formAB` and `formBA` list the entries of the same maps, `a` holding `x` and `b` holding
`y`, in the two orders in which `range` may visit them: the output has the part of `a` first in
one run and the part of `b` first in the other, so no order stored in the form decides it. -/
theorem writeMultipartForm_name_order_counterexample :
    formAB.sameMaps formBA
    ∧ writtenOf (writeMultipartForm acceptAll pool4096 [] formAB (ascii "b") 1024)
      = some (.ret (ascii "--b\r\nContent-Disposition: form-data; name=\"a\"\r\n\r\nx"
          ++ ascii "\r\n--b\r\nContent-Disposition: form-data; name=\"b\"\r\n\r\ny"
          ++ ascii "\r\n--b--\r\n", [], none))
    ∧ writtenOf (writeMultipartForm acceptAll pool4096 [] formBA (ascii "b") 1024)
      = some (.ret (ascii "--b\r\nContent-Disposition: form-data; name=\"b\"\r\n\r\ny"
          ++ ascii "\r\n--b\r\nContent-Disposition: form-data; name=\"a\"\r\n\r\nx"
          ++ ascii "\r\n--b--\r\n", [], none)) := by
  refine ⟨⟨List.Perm.swap _ _ _, List.Perm.refl _⟩, by decide!, by decide!⟩

/-- C13 (amended): for every form and every non-empty boundary that the writer takes,
`writeMultipartForm` ends (it returns or aborts), and when it returns, its output is, after what
`w` held, the parts of the field values, the field names in the order in which `range` visits
the map (the order of the list) and under each name its values in the order of its sequence;
then the parts of the files handled, which are the first files of the map in visiting order,
under each name in the order of its sequence; then nothing or the closing boundary.  So every
field part precedes every file part. -/
theorem writeMultipartForm_parts_in_order (accept : List Byte → Bool) (pool B : List Byte)
    (f : Form) (boundary : List Byte) (limitFormSize : Int) (hb : boundary.length ≠ 0)
    (hacc : accept boundary = true) :
    (∃ o, writeMultipartForm accept pool B f boundary limitFormSize = some o)
    ∧ ∀ w : Written, writeMultipartForm accept pool B f boundary limitFormSize = some (.ret w) →
      ∃ (handled : List (FileHeader × List Byte)) (rest : List FileHeader) (tail : List Byte),
        handled.map (fun d => d.1) ++ rest = filesOf f.File
        ∧ w.B = B ++ partsFrom boundary false (fieldParts f.Value ++ fileParts handled) ++ tail
        ∧ (tail = [] ∨ tail = strCRLF ++ closingLine boundary)
        ∧ w.opened = handled.map (fun d => d.1.Filename) := by
  refine ⟨writeMultipartForm_total accept pool B f boundary limitFormSize, ?_⟩
  intro w h
  obtain ⟨handled, rest, tail, a1, a2, a3, a4, _⟩ :=
    writeMultipartForm_parts accept pool B f boundary limitFormSize hb hacc w h
  exact ⟨handled, rest, tail, a1, a2, a3, a4⟩

/-- Witness of C13 (amended): the form with the field `a` and the files `f.bin` and `g.bin`,
ceiling 128. -/
theorem writeMultipartForm_parts_in_order_witness :
    ∃ (handled : List (FileHeader × List Byte)) (rest : List FileHeader) (tail : List Byte),
      handled.map (fun d => d.1) ++ rest = filesOf twoFileForm.File
      ∧ (Writer.Close ⟨ascii "b", true⟩
          (ascii "--b\r\nContent-Disposition: form-data; name=\"a\"\r\n\r\nbb"
            ++ ascii "\r\n--b\r\nContent-Type: application/octet-stream\r\n\r\n"
            ++ List.replicate 28 120))
        = [] ++ partsFrom (ascii "b") false (fieldParts twoFileForm.Value ++ fileParts handled)
          ++ tail
      ∧ (tail = [] ∨ tail = strCRLF ++ closingLine (ascii "b"))
      ∧ [ascii "f.bin"] = handled.map (fun d => d.1.Filename) :=
  (writeMultipartForm_parts_in_order acceptAll pool4096 [] twoFileForm (ascii "b") 128
    (by decide) rfl).2
    ⟨Writer.Close ⟨ascii "b", true⟩
        (ascii "--b\r\nContent-Disposition: form-data; name=\"a\"\r\n\r\nbb"
          ++ ascii "\r\n--b\r\nContent-Type: application/octet-stream\r\n\r\n"
          ++ List.replicate 28 120),
      [ascii "f.bin"], List.replicate 40 120 ++ List.replicate 4056 0, none⟩
    (by decide!)

/-- C14 (the code at the failing input): a request that holds only a form with the field
`a = b` and one file, boundary `b`.  With `limitFormSize = 64` and a file of 40 bytes the body
returned has 108 bytes: the field part, the header of the file part and the closing boundary are
written whatever the ceiling, and the tests of the ceiling on the length of the output come
after them.  With `limitFormSize = 10`, coerced to 1024, and a file of 2000 bytes the body has
1033 bytes. -/
theorem BodyLimit_exceeds_limitFormSize :
    BodyLimit acceptAll pool4096 plainErrorText
        (formRequest ⟨List.replicate 40 120, [], .EOF⟩) 64
      = some (.ret (ascii "--b\r\nContent-Disposition: form-data; name=\"a\"\r\n\r\nb"
          ++ ascii "\r\n--b\r\nContent-Type: application/octet-stream\r\n\r\n"
          ++ ascii "\r\n--b--\r\n"))
    ∧ (ascii "--b\r\nContent-Disposition: form-data; name=\"a\"\r\n\r\nb"
          ++ ascii "\r\n--b\r\nContent-Type: application/octet-stream\r\n\r\n"
          ++ ascii "\r\n--b--\r\n").length = 108
    ∧ BodyLimit acceptAll pool4096 plainErrorText
        (formRequest ⟨List.replicate 2000 120, [], .EOF⟩) 10
      = some (.ret (ascii "--b\r\nContent-Disposition: form-data; name=\"a\"\r\n\r\nb"
          ++ ascii "\r\n--b\r\nContent-Type: application/octet-stream\r\n\r\n"
          ++ List.replicate 925 120 ++ ascii "\r\n--b--\r\n"))
    ∧ (ascii "--b\r\nContent-Disposition: form-data; name=\"a\"\r\n\r\nb"
          ++ ascii "\r\n--b\r\nContent-Type: application/octet-stream\r\n\r\n"
          ++ List.replicate 925 120 ++ ascii "\r\n--b--\r\n").length = 1033 := by
  refine ⟨by decide!, by decide!, ?_, by decide!⟩
  set_option maxRecDepth 1000000 in decide!

/-- Well-formed chunks within the ceiling followed by the terminal chunk are read in full. -/
theorem readBodyChunked2_reads_all (d maxBodySize : Int) (decode : FormDecoder)
    (req : Request) (cs : List Chunk) (zdigits zext tail : List Byte) (sched : List Nat)
    (fin : Error) (hb : req.headerBoundary = []) (hcs : ∀ c ∈ cs, c.wellFormed)
    (hz : okDigits zdigits ∧ okExt zext ∧ hexValue zdigits = 0)
    (hlim : clampedCeiling d maxBodySize ≤ 0
      ∨ ((payloads cs).length : Int) ≤ clampedCeiling d maxBodySize) :
    ∃ sched1, readBodyChunked2 d decode req
        ⟨encodeChunks cs ++ sizeLine zdigits zext ++ tail, sched, fin⟩ maxBodySize []
      = some (.ret ⟨req, payloads cs, none, ⟨tail, sched1, fin⟩⟩) := by
  have hlen := length_le_encodeChunks cs
  obtain ⟨k, hk⟩ : ∃ k, (encodeChunks cs ++ sizeLine zdigits zext ++ tail).length + 1
      = (k + 1) + cs.length := by
    refine ⟨(encodeChunks cs ++ sizeLine zdigits zext ++ tail).length - cs.length, ?_⟩
    simp only [List.length_append]; omega
  obtain ⟨s1, hs1⟩ := readBodyChunked2.loop_chunks cs hcs (k + 1) (sizeLine zdigits zext ++ tail)
    sched fin (clampedCeiling d maxBodySize) [] (by simpa using hlim)
  refine ⟨s1, ?_⟩
  have hl := readBodyChunked2.loop_terminal zdigits zext hz.1 hz.2.1 hz.2.2 k tail s1 fin
    (clampedCeiling d maxBodySize) ([] ++ payloads cs)
  rw [readBodyChunked2_of_loop d decode req _ maxBodySize hb
    ([] ++ payloads cs, none, ⟨tail, s1, fin⟩)]
  · simp
  · show readBodyChunked2.loop ((encodeChunks cs ++ sizeLine zdigits zext ++ tail).length + 1)
      _ _ _ = _
    rw [hk, List.append_assoc, hs1, hl]

/-- Well-formed chunks whose payloads, added to a buffer within a positive ceiling, exceed the
ceiling: the loop ends with `ErrBodyTooLarge` and a buffer within the ceiling. -/
theorem readBodyChunked2.loop_exceeds (cs : List Chunk) (hcs : ∀ c ∈ cs, c.wellFormed) :
    ∀ (fuel : Nat) (rest : List Byte) (sched : List Nat) (fin : Error) (m : Int)
      (dst : List Byte), 0 < m → (dst.length : Int) ≤ m →
      m < (dst.length : Int) + (payloads cs).length →
      ∃ dst1 r1, readBodyChunked2.loop (fuel + cs.length) ⟨encodeChunks cs ++ rest, sched, fin⟩
          m dst = some (dst1, some .ErrBodyTooLarge, r1) ∧ (dst1.length : Int) ≤ m := by
  induction cs with
  | nil =>
    intro fuel rest sched fin m dst _ h1 h2
    simp only [payloads, List.length_nil, Nat.cast_zero, add_zero] at h2
    omega
  | cons c cs ih =>
    intro fuel rest sched fin m dst hm h1 h2
    have hc : c.wellFormed := hcs c (by simp)
    have hcs1 : ∀ x ∈ cs, x.wellFormed := fun x hx => hcs x (by simp [hx])
    simp only [payloads, List.length_append, Nat.cast_add] at h2
    have hfuel : fuel + (c :: cs).length = fuel + cs.length + 1 := by simp; omega
    rw [hfuel]
    by_cases hover : m < (dst.length : Int) + c.payload.length
    · have henc : encodeChunks (c :: cs) ++ rest
          = sizeLine c.digits c.ext ++ (c.payload ++ strCRLF ++ (encodeChunks cs ++ rest)) := by
        simp only [encodeChunks, Chunk.encode, List.append_assoc]
      have hl := readBodyChunked2.loop_tooLarge c.digits c.ext hc.1 hc.2.1 (fuel + cs.length)
        (c.payload ++ strCRLF ++ (encodeChunks cs ++ rest)) sched fin m dst hm h1
        (by rw [hc.2.2.1]; exact hover)
      rw [henc, hl]
      exact ⟨dst, _, rfl, h1⟩
    · obtain ⟨s1, hs1⟩ := readBodyChunked2.loop_chunk c hc (fuel + cs.length)
        (encodeChunks cs ++ rest) sched fin m dst (by omega)
      obtain ⟨dst1, r1, hr, hbound⟩ := ih hcs1 fuel rest s1 fin m (dst ++ c.payload) hm
        (by simp only [List.length_append, Nat.cast_add]; omega)
        (by simp only [List.length_append, Nat.cast_add]; omega)
      refine ⟨dst1, r1, ?_, hbound⟩
      simp only [encodeChunks, List.append_assoc] at hs1 ⊢
      rw [hs1, hr]

/-- Under a positive ceiling a successful loop returns a buffer within the ceiling, whatever the
input. -/
theorem readBodyChunked2.loop_bound (fuel : Nat) :
    ∀ (r : Reader) (m : Int) (dst dst1 : List Byte) (r1 : Reader), 0 < m →
      (dst.length : Int) ≤ m → readBodyChunked2.loop fuel r m dst = some (dst1, none, r1) →
      (dst1.length : Int) ≤ m := by
  induction fuel with
  | zero => intro r m dst dst1 r1 _ _ h; simp [readBodyChunked2.loop] at h
  | succ fuel ih =>
    intro r m dst dst1 r1 hm hdst h
    rw [readBodyChunked2.loop] at h
    rcases hparse : parseChunkSize r with ⟨_ | chunkSize, r2⟩
    · rw [hparse] at h; simp at h
    · rw [hparse] at h
      simp only at h
      by_cases hz : chunkSize = 0
      · rw [if_pos hz] at h
        simp only [Option.some.injEq, Prod.mk.injEq, true_and] at h
        rw [← h.1]; exact hdst
      · rw [if_neg hz] at h
        by_cases hbig : m > 0 ∧ (dst.length : Int) + chunkSize > m
        · rw [if_pos hbig] at h; simp at h
        · rw [if_neg hbig] at h
          have hfit : (dst.length : Int) + chunkSize ≤ m := by
            by_contra hcon
            exact hbig ⟨hm, by omega⟩
          obtain ⟨data, sched, fin⟩ := r2
          by_cases hd : chunkSize + strCRLFLen ≤ data.length
          · obtain ⟨s1, hs1⟩ := appendBodyFixedSize_pkg_full data sched fin dst
              (chunkSize + strCRLFLen) (by unfold strCRLFLen strCRLF; simp) hd
            rw [hs1] at h
            simp only at h
            split_ifs at h with hcr
            · simp at h
            · apply ih _ m _ dst1 r1 hm _ h
              have h2 : strCRLFLen = 2 := rfl
              simp only [List.length_take, List.length_append, h2]
              have : min (chunkSize + 2) data.length = chunkSize + 2 := by
                rw [h2] at hd; omega
              rw [this]
              have : min (dst.length + (chunkSize + 2) - 2) (dst.length + (chunkSize + 2))
                  = dst.length + chunkSize := by omega
              rw [this]
              push_cast
              exact hfit
          · obtain ⟨s1, hs1⟩ := appendBodyFixedSize_pkg_short data sched fin dst
              (chunkSize + strCRLFLen) (by omega)
            rw [hs1] at h
            simp at h

theorem readHexDigits_length (l : List Byte) :
    ∀ n, (readHexDigits n l).2.length ≤ l.length := by
  induction l with
  | nil => intro n; simp [readHexDigits]
  | cons c cs ih =>
    intro n
    unfold readHexDigits
    split_ifs
    · have := ih (n * 16 + hex2int c)
      simp only [List.length_cons]; omega
    · exact le_refl _

theorem skipExt_length (l : List Byte) : (skipExt l).2.length ≤ l.length := by
  induction l with
  | nil => simp [skipExt]
  | cons c cs ih =>
    unfold skipExt
    split_ifs
    · exact le_refl _
    · exact le_refl _
    · simp only [List.length_cons]; omega

theorem extStep_length (rest : List Byte) :
    ((match rest with
      | 59 :: ext => skipExt ext
      | _ => (true, rest)) : Bool × List Byte).2.length ≤ rest.length := by
  split
  · rename_i ext
    have := skipExt_length ext
    simp only [List.length_cons]; omega
  · exact le_refl _

theorem readCrLf_length (l : List Byte) (h : (readCrLf l).1 = true) :
    (readCrLf l).2.length + 2 = l.length := by
  unfold readCrLf at h ⊢
  split at h
  · simp
  · simp at h

/-- A chunk-size line that parses takes at least two bytes from the source. -/
theorem parseChunkSize_consumes (r r1 : Reader) (n : Nat)
    (h : parseChunkSize r = (.ok n, r1)) : r1.data.length + 2 ≤ r.data.length := by
  unfold parseChunkSize at h
  rcases hdata : r.data with _ | ⟨c, cs⟩
  · rw [hdata] at h; simp at h
  · rw [hdata] at h
    simp only at h
    split_ifs at h with hc hok hend
    · have h1 := readHexDigits_length (c :: cs) 0
      have h3 := extStep_length (readHexDigits 0 (c :: cs)).2
      have h4 := readCrLf_length _ hend
      simp only [Prod.mk.injEq] at h
      rw [← h.2]
      simp only [List.length_cons] at h1 ⊢
      omega
    · simp at h
    · simp at h
    · simp at h

/-- The loop of the branch without a boundary returns once the fuel exceeds the number of bytes
left in the source. -/
theorem readBodyChunked2.loop_total (fuel : Nat) :
    ∀ (r : Reader) (m : Int) (dst : List Byte), r.data.length < fuel →
      ∃ x, readBodyChunked2.loop fuel r m dst = some x := by
  induction fuel with
  | zero => intro r m dst h; omega
  | succ fuel ih =>
    intro r m dst hfuel
    rw [readBodyChunked2.loop]
    rcases hparse : parseChunkSize r with ⟨e | chunkSize, r2⟩
    · exact ⟨_, rfl⟩
    · simp only
      have hcons := parseChunkSize_consumes r r2 chunkSize hparse
      by_cases hz : chunkSize = 0
      · rw [if_pos hz]; exact ⟨_, rfl⟩
      · rw [if_neg hz]
        by_cases hbig : m > 0 ∧ (dst.length : Int) + chunkSize > m
        · rw [if_pos hbig]; exact ⟨_, rfl⟩
        · rw [if_neg hbig]
          obtain ⟨data, sched, fin⟩ := r2
          simp only at hcons
          by_cases hd : chunkSize + strCRLFLen ≤ data.length
          · obtain ⟨s1, hs1⟩ := appendBodyFixedSize_pkg_full data sched fin dst
              (chunkSize + strCRLFLen) (by unfold strCRLFLen strCRLF; simp) hd
            rw [hs1]
            simp only
            split_ifs with hcr
            · exact ⟨_, rfl⟩
            · apply ih
              simp only [List.length_drop]
              omega
          · obtain ⟨s1, hs1⟩ := appendBodyFixedSize_pkg_short data sched fin dst
              (chunkSize + strCRLFLen) (by omega)
            rw [hs1]
            exact ⟨_, rfl⟩

/-- C15 (as stated, refuted): with `defaultMaxInMemoryFileSize` at 16 MiB and `maxBodySize = 0`,
which lines 121-123 leave as it is and line 132 treats as unlimited, a well-formed body of one
chunk of 16 MiB + 1 bytes is assembled in full: the call succeeds and returns 16 MiB + 1
bytes. -/
theorem readBodyChunked2_unlimited_counterexample :
    (∀ c ∈ [bigChunk], c.wellFormed)
    ∧ (∃ sched1, readBodyChunked2 16777216 idleDecoder plainRequest
          ⟨encodeChunks [bigChunk] ++ sizeLine [48] [] ++ [], [], .EOF⟩ 0 []
        = some (.ret ⟨plainRequest, payloads [bigChunk], none, ⟨[], sched1, .EOF⟩⟩))
    ∧ (16777216 : Int) < ((payloads [bigChunk]).length : Int) := by
  refine ⟨?_, ?_, ?_⟩
  · intro c hc
    rw [List.mem_singleton] at hc
    subst hc
    exact bigChunk_wellFormed
  · apply readBodyChunked2_reads_all 16777216 0 idleDecoder plainRequest [bigChunk] [48] [] []
      [] .EOF rfl
    · intro c hc
      rw [List.mem_singleton] at hc
      subst hc
      exact bigChunk_wellFormed
    · decide
    · left
      unfold clampedCeiling
      norm_num
  · rw [payloads_bigChunk_length]; norm_num

/-- C15 (amended): on a request without a multipart boundary, read with an empty `dst`, with
`defaultMaxInMemoryFileSize > 0` and every `maxBodySize > 0`: a `maxBodySize` above
`defaultMaxInMemoryFileSize` acts as `defaultMaxInMemoryFileSize`; a well-formed body whose
total payload exceeds `defaultMaxInMemoryFileSize` is rejected with `ErrBodyTooLarge`, the
buffer returned being within it; and whatever the input, the call returns, and when it succeeds
the buffer returned is at most `defaultMaxInMemoryFileSize` bytes long.  (`maxBodySize <= 0`
stays unlimited.) -/
theorem readBodyChunked2_in_memory_bound (d maxBodySize : Int) (decode : FormDecoder)
    (req : Request) (r : Reader) (hb : req.headerBoundary = []) (hd : 0 < d)
    (hmax : 0 < maxBodySize) :
    (d < maxBodySize →
      readBodyChunked2 d decode req r maxBodySize [] = readBodyChunked2 d decode req r d [])
    ∧ (∀ (cs : List Chunk) (rest : List Byte), r.data = encodeChunks cs ++ rest →
      (∀ c ∈ cs, c.wellFormed) → d < ((payloads cs).length : Int) →
      ∃ b, readBodyChunked2 d decode req r maxBodySize [] = some (.ret b)
        ∧ b.err = some .ErrBodyTooLarge ∧ (b.dst.length : Int) ≤ d)
    ∧ (∃ b, readBodyChunked2 d decode req r maxBodySize [] = some (.ret b)
      ∧ (b.err = none → (b.dst.length : Int) ≤ d)) := by
  have hm : 0 < clampedCeiling d maxBodySize := by
    unfold clampedCeiling; exact lt_min hmax hd
  have hmd : clampedCeiling d maxBodySize ≤ d := by
    unfold clampedCeiling; exact min_le_right _ _
  refine ⟨?_, ?_, ?_⟩
  · intro hlt
    unfold readBodyChunked2
    simp only [hb, gt_iff_lt, hlt, if_true, lt_self_iff_false, if_false]
  · intro cs rest hdata hcs htotal
    obtain ⟨data, sched, fin⟩ := r
    simp only at hdata
    subst hdata
    have hlen := length_le_encodeChunks cs
    obtain ⟨k, hk⟩ : ∃ k, (encodeChunks cs ++ rest).length + 1 = k + cs.length := by
      refine ⟨(encodeChunks cs ++ rest).length + 1 - cs.length, ?_⟩
      simp only [List.length_append]; omega
    obtain ⟨dst1, r1, hl, hbound⟩ := readBodyChunked2.loop_exceeds cs hcs k rest sched fin
      (clampedCeiling d maxBodySize) [] hm (by simpa using le_of_lt hm)
      (by simp only [List.length_nil, Nat.cast_zero, zero_add]; omega)
    refine ⟨⟨req, dst1, some .ErrBodyTooLarge, r1⟩, ?_, rfl, by simp only; omega⟩
    apply readBodyChunked2_of_loop d decode req _ maxBodySize hb
      (dst1, some .ErrBodyTooLarge, r1)
    show readBodyChunked2.loop ((encodeChunks cs ++ rest).length + 1) _ _ _ = _
    rw [hk, hl]
  · obtain ⟨x, hx⟩ := readBodyChunked2.loop_total (r.data.length + 1) r
      (clampedCeiling d maxBodySize) [] (by omega)
    refine ⟨⟨req, x.1, x.2.1, x.2.2⟩,
      readBodyChunked2_of_loop d decode req r maxBodySize hb x hx, ?_⟩
    intro herr
    obtain ⟨dst1, err, r1⟩ := x
    simp only at herr
    subst herr
    have := readBodyChunked2.loop_bound _ r (clampedCeiling d maxBodySize) [] dst1 r1 hm
      (by simpa using le_of_lt hm) hx
    simp only
    omega

/-- Witness of C15 (amended): `defaultMaxInMemoryFileSize = 16 MiB`, `maxBodySize = 32 MiB`, the
body `3 CRLF abc CRLF 0 CRLF`. -/
theorem readBodyChunked2_in_memory_bound_witness :
    readBodyChunked2 16777216 idleDecoder plainRequest ⟨sampleBody, [], .EOF⟩ 33554432 []
      = readBodyChunked2 16777216 idleDecoder plainRequest ⟨sampleBody, [], .EOF⟩ 16777216 [] :=
  (readBodyChunked2_in_memory_bound 16777216 33554432 idleDecoder plainRequest
    ⟨sampleBody, [], .EOF⟩ rfl (by decide) (by decide)).1 (by decide)

/-- C16: for every source, ceiling, request and decoder, `readBodyChunked2` called with a
non-empty `dst` aborts with `BUG: expected zero-length buffer`; the abort is the first statement,
so the outcome carries no request, buffer or source and is the same whatever they are.  Called
with an empty `dst` it returns normally, hence never raises that abort. -/
theorem readBodyChunked2_nonempty_dst_aborts (d : Int) (decode : FormDecoder) (req : Request)
    (r : Reader) (maxBodySize : Int) (dst : List Byte) :
    (dst ≠ [] →
      readBodyChunked2 d decode req r maxBodySize dst
        = some (.panic .expectedZeroLengthBuffer))
    ∧ (∃ b, readBodyChunked2 d decode req r maxBodySize [] = some (.ret b))
    ∧ readBodyChunked2 d decode req r maxBodySize []
        ≠ some (.panic .expectedZeroLengthBuffer) := by
  have hret : ∃ b, readBodyChunked2 d decode req r maxBodySize [] = some (.ret b) := by
    unfold readBodyChunked2
    rw [if_neg (by simp)]
    by_cases hb : req.headerBoundary = []
    · rw [if_pos hb]
      obtain ⟨x, hx⟩ := readBodyChunked2.loop_total (r.data.length + 1) r
        (if maxBodySize > d then d else maxBodySize) [] (by omega)
      simp only [hx]
      exact ⟨_, rfl⟩
    · rw [if_neg hb]
      exact ⟨_, rfl⟩
  refine ⟨?_, hret, ?_⟩
  · intro hne
    unfold readBodyChunked2
    rw [if_pos (List.length_pos.mpr hne)]
  · obtain ⟨b, hb⟩ := hret
    rw [hb]
    simp

/-- Witness of C16: the one-byte `dst` on the sample body. -/
theorem readBodyChunked2_nonempty_dst_aborts_witness :
    readBodyChunked2 16777216 idleDecoder plainRequest ⟨sampleBody, [], .EOF⟩ 0 [7]
      = some (.panic .expectedZeroLengthBuffer) :=
  (readBodyChunked2_nonempty_dst_aborts 16777216 idleDecoder plainRequest
    ⟨sampleBody, [], .EOF⟩ 0 [7]).1 (by decide)

/-- The branch of lines 166-172: with staged bytes (`wt > rd`, the window `buf[rd:wt]` lying
within `buf`) `Read` returns the count `wt - rd` and a nil error whatever the length of `p`, `p`
being what `copy(p, buf[rd:wt])` leaves; both cursors are reset to `0`, and the source, `rs`,
`chunkSize`, `limitSize` and `buf` are unchanged.  Only when `p` has room for the staged bytes
are they all at its start. -/
theorem chunkedFormReader.Read_staged (a : chunkedFormReader) (p : List Byte)
    (hstaged : a.wt > a.rd) (hwin : a.wt ≤ a.buf.length) :
    (∃ p1, a.Read p = some (.ret ⟨p1, a.wt - a.rd, none,
        ⟨a.r, a.limitSize, a.rs, a.chunkSize, 0, 0, a.buf⟩⟩)
      ∧ p1 = (copyBytes p ((a.buf.take a.wt).drop a.rd)).1
      ∧ p1.length = p.length
      ∧ (a.wt - a.rd ≤ p.length → p1.take (a.wt - a.rd) = (a.buf.take a.wt).drop a.rd)) := by
  have hwlen : ((a.buf.take a.wt).drop a.rd).length = a.wt - a.rd := by
    simp only [List.length_drop, List.length_take]; omega
  refine ⟨_, ?_, rfl, ?_, ?_⟩
  · unfold chunkedFormReader.Read
    rw [if_pos hstaged, if_neg (by omega)]
  · unfold copyBytes
    simp only [List.length_append, List.length_take, List.length_drop, hwlen]
    omega
  · intro hroom
    unfold copyBytes
    simp only
    rw [List.take_of_length_le (l := (a.buf.take a.wt).drop a.rd) (by omega)]
    rw [List.take_left' hwlen]

/-- C17 (the code at the failing input): the adapter that a first `Read` into a one-byte buffer
leaves on the body `3 CRLF abc CRLF 0 CRLF`: `b` and `c` are staged (`rd = 1`, `wt = 3`).  A
`Read` into a one-byte buffer reports 2 bytes with a nil error and resets both cursors, leaving
the source, `rs`, `chunkSize`, `limitSize` and `buf` as they were, but the caller's buffer holds
`b` alone: `c` is reported and not returned.  The next `Read` parses `0 CRLF` and returns 0 with
a nil error, so `c` is never returned. -/
theorem chunkedFormReader_Read_staged_short_buffer :
    (chunkedFormReader.new ⟨sampleBody, [], .EOF⟩ 0).Read [0]
      = some (.ret ⟨[97], 1, none, stagedAdapter⟩)
    ∧ stagedAdapter.rd = 1 ∧ stagedAdapter.wt = 3
    ∧ (stagedAdapter.buf.take stagedAdapter.wt).drop stagedAdapter.rd = [98, 99]
    ∧ stagedAdapter.Read [0]
      = some (.ret ⟨[98], 2, none, { stagedAdapter with rd := 0, wt := 0 }⟩)
    ∧ ({ stagedAdapter with rd := 0, wt := 0 } : chunkedFormReader).Read [0]
      = some (.ret ⟨[0], 0, none,
          { stagedAdapter with rd := 0, wt := 0, r := ⟨[], [], .EOF⟩ }⟩) := by
  refine ⟨by decide!, rfl, rfl, by decide!, by decide!, by decide!⟩

/-- Paging keeps the cursors within their bounds: it returns, the page has at most 4096 bytes,
and after a page that succeeded `rd` is at most `wt`. -/
theorem chunkedFormReader.page_bounds (a : chunkedFormReader) (chunkSize : Nat) (p : List Byte)
    (h : a.chunkSize = chunkSize) (hpos : 0 < chunkSize) (hbuf : a.buf.length = 4098)
    (hrd : a.rd ≤ 4096) :
    ∃ res, a.page chunkSize p = some (.ret res) ∧ res.s.bounded ∧ res.n ≤ 4096
      ∧ (res.err = none → res.s.rd ≤ res.s.wt) := by
  obtain ⟨c1, c2, c3, c4, c5, c6, c7, c8, c9⟩ := chunkedFormReader.cut_spec a chunkSize h hpos
  unfold chunkedFormReader.page
  generalize (a.cut chunkSize).1 = a1 at *
  generalize (a.cut chunkSize).2.1 = n at *
  generalize (a.cut chunkSize).2.2 = c at *
  have hn : n ≤ 4096 := by rw [c7]; split_ifs <;> omega
  have hc : c ≤ 4098 := by rw [c8]; split_ifs <;> omega
  have hnc : n ≤ c := by rw [c8]; split_ifs <;> omega
  have hc0 : 0 < c := by rw [c8]; split_ifs <;> omega
  by_cases hd : a1.r.data.length < c
  · obtain ⟨s, hs, s1, s2, s3, s4, s5, s6, _⟩ := chunkedFormReader.stage_short a1 n c p
      (by rw [c2, hbuf]; exact hc) hd
    refine ⟨_, hs, ⟨by rw [s6, c2, hbuf], by rw [s5]; exact hn, by rw [s4, c4]; exact hrd⟩,
      Nat.zero_le _, ?_⟩
    intro herr
    simp at herr
  · obtain ⟨sched1, hs⟩ := chunkedFormReader.stage_full a1 n c p
      (by rw [c2, hbuf]; exact hc) hc0 hnc (by omega)
    rw [hs]
    split_ifs with hbr
    · refine ⟨_, rfl, ⟨?_, hn, by rw [← c4] at hrd; exact hrd⟩, Nat.zero_le _, ?_⟩
      · simp only [List.length_append, List.length_take, List.length_drop, c2, hbuf]; omega
      · intro herr
        simp at herr
    · have hcnt := copyBytes_count p (a1.r.data.take n)
      simp only [List.length_take] at hcnt
      refine ⟨_, rfl, ⟨?_, hn, ?_⟩, ?_, ?_⟩
      · simp only [List.length_append, List.length_take, List.length_drop, c2, hbuf]; omega
      · show (copyBytes p (a1.r.data.take n)).2 ≤ 4096
        rw [hcnt]; omega
      · show (copyBytes p (a1.r.data.take n)).2 ≤ 4096
        rw [hcnt]; omega
      · intro _
        show (copyBytes p (a1.r.data.take n)).2 ≤ n
        rw [hcnt]; omega

/-- A `Read` call keeps the cursors within their bounds: it returns, the count is at most 4096,
and a call that succeeds leaves `rd` at most `wt` when it found them so. -/
theorem chunkedFormReader.Read_bounds (a : chunkedFormReader) (p : List Byte)
    (h : a.bounded) :
    ∃ res, a.Read p = some (.ret res) ∧ res.s.bounded ∧ res.n ≤ 4096
      ∧ (a.rd ≤ a.wt → res.err = none → res.s.rd ≤ res.s.wt) := by
  obtain ⟨hbuf, hwt, hrd⟩ := h
  unfold chunkedFormReader.Read
  by_cases hw : a.wt > a.rd
  · rw [if_pos hw, if_neg (by omega)]
    exact ⟨_, rfl, ⟨hbuf, Nat.zero_le _, Nat.zero_le _⟩, by show a.wt - a.rd ≤ 4096; omega,
      fun _ _ => Nat.le_refl 0⟩
  · rw [if_neg hw]
    by_cases hcs : a.chunkSize = 0
    · rw [if_pos hcs]
      rcases hparse : parseChunkSize a.r with ⟨_ | chunkSize, r1⟩
      · exact ⟨_, rfl, ⟨hbuf, hwt, hrd⟩, Nat.zero_le _, fun ho _ => ho⟩
      · simp only
        by_cases hz : chunkSize = 0
        · rw [if_pos hz]
          exact ⟨_, rfl, ⟨hbuf, hwt, hrd⟩, Nat.zero_le _, fun ho _ => ho⟩
        · rw [if_neg hz]
          by_cases hbig : a.limitSize > 0 ∧ (a.rs : Int) + chunkSize > a.limitSize
          · rw [if_pos hbig]
            exact ⟨_, rfl, ⟨hbuf, hwt, hrd⟩, Nat.zero_le _, fun ho _ => ho⟩
          · rw [if_neg hbig]
            obtain ⟨res, h1, h2, h3, h4⟩ := chunkedFormReader.page_bounds
              { a with r := r1, chunkSize := chunkSize } chunkSize p rfl (by omega) hbuf hrd
            exact ⟨res, h1, h2, h3, fun _ => h4⟩
    · rw [if_neg hcs]
      obtain ⟨res, h1, h2, h3, h4⟩ := chunkedFormReader.page_bounds a a.chunkSize p rfl
        (by omega) hbuf hrd
      exact ⟨res, h1, h2, h3, fun _ => h4⟩

/-- A run of `Read` calls keeps the cursors within their bounds, and `rd` at most `wt` as long
as every call succeeds. -/
theorem chunkedFormReader.trace_bounds (ps : List (List Byte)) :
    ∀ a : chunkedFormReader, a.bounded →
      ∃ rs, a.trace ps = some (.ret rs) ∧ rs.length = ps.length
        ∧ (∀ res ∈ rs, res.s.bounded ∧ res.n ≤ 4096)
        ∧ (a.rd ≤ a.wt → (∀ res ∈ rs, res.err = none) → ∀ res ∈ rs, res.s.rd ≤ res.s.wt) := by
  induction ps with
  | nil =>
    intro a _
    exact ⟨[], rfl, rfl, by simp, by simp⟩
  | cons p ps ih =>
    intro a h
    obtain ⟨res, hres, hb, hn, ho⟩ := chunkedFormReader.Read_bounds a p h
    obtain ⟨rs, hrs, hlen, hall, hord⟩ := ih res.s hb
    refine ⟨res :: rs, ?_, by simp [hlen], ?_, ?_⟩
    · simp only [chunkedFormReader.trace, hres, hrs]
    · intro x hx
      rcases List.mem_cons.mp hx with hx | hx
      · subst hx; exact ⟨hb, hn⟩
      · exact hall x hx
    · intro hao hok x hx
      have h0 : res.s.rd ≤ res.s.wt := ho hao (hok res (List.mem_cons_self _ _))
      rcases List.mem_cons.mp hx with hx | hx
      · subst hx; exact h0
      · exact hord h0 (fun y hy => hok y (List.mem_cons_of_mem _ hy)) x hx

theorem chunkedFormReader.new_bounded (r : Reader) (limit : Int) :
    (chunkedFormReader.new r limit).bounded :=
  ⟨List.length_replicate _ _, Nat.zero_le _, Nat.zero_le _⟩

/-- C18 (as stated, refuted): the body `3 CRLF abc CRLF`, then a chunk of size 1 whose byte is
followed by `XY` instead of CRLF, then `0 CRLF`, read through a fresh adapter with buffers of
four bytes.  The first call succeeds (`rd = wt = 3`); the second stages the page (`wt = 1`) and
fails on the missing CRLF without touching `rd`; the third call meets the zero-size chunk and
succeeds, and after it `rd = 3` exceeds `wt = 1`. -/
theorem chunkedFormReader_cursor_order_counterexample :
    viewsOf ((chunkedFormReader.new ⟨brokenBody, [], .EOF⟩ 0).trace
        [[0, 0, 0, 0], [0, 0, 0, 0], [0, 0, 0, 0]])
      = some (.ret
        [⟨[97, 98, 99, 0], 3, none, 3, 3⟩,
         ⟨[0, 0, 0, 0], 0, some (.ErrBrokenChunk .noCrlfAtEnd), 3, 1⟩,
         ⟨[0, 0, 0, 0], 0, none, 3, 1⟩]) := by
  decide!

/-- C18 (amended): for every adapter created as in `readBodyChunked2` (a 4098-byte `buf`, zero
counters), whatever the source, the limit, the chunk sizes and the caller buffers: a page takes
at most 4096 payload bytes, and at most 2 bytes more are read with it; every call of a run
returns without an abort of a slice expression; after every call `buf` has its 4098 bytes,
`wt <= 4096`, `rd <= 4096` and the count returned is at most 4096; and in a run all of whose
calls succeeded, `rd <= wt` holds after every call.  (After a failed page `wt` is the size of
that page and `rd` keeps its old value.) -/
theorem chunkedFormReader_cursor_bounds (r : Reader) (limitSize : Int)
    (ps : List (List Byte)) :
    (∀ (a : chunkedFormReader) (chunkSize : Nat),
      (a.cut chunkSize).2.1 ≤ 4096 ∧ (a.cut chunkSize).2.2 ≤ (a.cut chunkSize).2.1 + 2)
    ∧ ∃ rs, (chunkedFormReader.new r limitSize).trace ps = some (.ret rs)
      ∧ rs.length = ps.length
      ∧ (∀ res ∈ rs, res.s.buf.length = 4098 ∧ res.s.wt ≤ 4096 ∧ res.s.rd ≤ 4096
          ∧ res.n ≤ 4096)
      ∧ ((∀ res ∈ rs, res.err = none) → ∀ res ∈ rs, res.s.rd ≤ res.s.wt) := by
  constructor
  · intro a chunkSize
    unfold chunkedFormReader.cut
    by_cases hc : chunkSize > 4096
    · simp only [hc, if_true]; omega
    · simp only [hc, if_false, strCRLFLen, strCRLF, List.length_cons, List.length_nil]; omega
  · obtain ⟨rs, hrs, hlen, hall, hord⟩ :=
      chunkedFormReader.trace_bounds ps _ (chunkedFormReader.new_bounded r limitSize)
    refine ⟨rs, hrs, hlen, ?_, hord (Nat.le_refl 0)⟩
    intro res hres
    obtain ⟨⟨h1, h2, h3⟩, h4⟩ := hall res hres
    exact ⟨h1, h2, h3, h4⟩

/-- Witness of C18 (amended): the sample body read with two one-byte buffers. -/
theorem chunkedFormReader_cursor_bounds_witness :
    ∃ rs, (chunkedFormReader.new ⟨sampleBody, [], .EOF⟩ 0).trace [[0], [0]] = some (.ret rs)
      ∧ rs.length = 2 := by
  obtain ⟨rs, h1, h2, _⟩ :=
    (chunkedFormReader_cursor_bounds ⟨sampleBody, [], .EOF⟩ 0 [[0], [0]]).2
  exact ⟨rs, h1, h2⟩

/-- C19 (the code at the failing input): `myLimitReader.Read` with limit 100 and 90 bytes
counted so far, on a source whose `Read` places 50 bytes in a buffer of 4096: the count returned
is 100, twice what was placed.  With limit 20, 15 bytes counted and a buffer of 8 bytes the
source places 8 bytes and the count returned is 20, more than the buffer holds.  With a negative
limit the count returned is negative.  A copy with limit 5000 from a source of 6000 bytes
through a pooled buffer of 4096 bytes aborts on the slice `buf[0:5000]`. -/
theorem myLimitReader_Read_count_exceeds_bytes_read :
    countsOf ((⟨100, 90, ⟨List.replicate 50 7, [], .EOF⟩⟩ : myLimitReader).Read 4096)
      = (50, 100, some .EOF)
    ∧ countsOf ((⟨20, 15, ⟨List.replicate 30 7, [], .EOF⟩⟩ : myLimitReader).Read 8)
      = (8, 20, some .EOF)
    ∧ countsOf ((⟨-3, 0, ⟨[7], [], .EOF⟩⟩ : myLimitReader).Read 8) = (1, -3, some .EOF)
    ∧ copiedOf (limitCopyZeroAlloc pool4096 [] ⟨List.replicate 6000 7, [], .EOF⟩ 5000)
      = some (.panic .sliceBounds) := by
  refine ⟨by decide!, by decide!, by decide!, ?_⟩
  set_option maxRecDepth 1000000 in decide!

/-- C20 (the code at the failing input): the body `3 CRLF abc CRLF 0 CRLF` read through a fresh
adapter with one-byte caller buffers.  The first call stages `abc`, places `a` in its buffer
and returns 1 (`rd = 1`, `wt = 3`).  The second call places `b` in its one-byte buffer but
returns the count 2, more than the buffer holds, and resets both cursors, so that `c` is no
longer staged; the third call meets the zero-size chunk and returns 0 with a nil error. -/
theorem chunkedFormReader_Read_count_exceeds_buffer :
    viewsOf ((chunkedFormReader.new ⟨sampleBody, [], .EOF⟩ 0).trace [[0], [0], [0]])
      = some (.ret
        [⟨[97], 1, none, 1, 3⟩, ⟨[98], 2, none, 0, 0⟩, ⟨[0], 0, none, 0, 0⟩]) := by
  decide!

end Fasthttp
